import Mathlib

/-!
Verification of the memoryfs repository: an in-process hierarchical file tree
behind the standard Go `io/fs` capability contract.

The path normalizer is translated from `cleanse.go`.  The node tree and the
filesystem façade operations are modelled from the specification, since their
defining source file is not part of the sources provided here; every such
definition carries a doc comment explaining the modelling choice.
-/

deriving instance DecidableEq for Except

namespace Memfs

/-! ## Path normalizer (translated from cleanse.go)

Go strings are modelled as `List Char`; `String` wrappers are provided at the
end.  `strings.Split` / joining with the separator, `path.Clean`, and
`strings.TrimPrefix` are each translated below.
-/

/-- Modelled from the spec: the path separator constant `separator` is declared
in a source file of this repository that is not among the provided sources.
The `io/fs` capability contract implemented by the façade and the repository's
tests (which address every file with slash-joined paths, and walk the tree via
`fs.WalkDir`, which joins entry names with `/`) fix it to the forward slash. -/
def separator : String := "/"

/-- Splitting a character list at every `'/'`, faithful to Go's
`strings.Split(s, "/")`: splitting the empty string yields one empty field. -/
def splitSlash : List Char → List (List Char)
  | [] => [[]]
  | c :: rest =>
    if c = '/' then [] :: splitSlash rest
    else
      match splitSlash rest with
      | [] => [[c]]
      | s :: ss => (c :: s) :: ss

/-- Joining fields with `'/'`, the inverse of `splitSlash`. -/
def joinSlash : List (List Char) → List Char
  | [] => []
  | [s] => s
  | s :: rest => s ++ '/' :: joinSlash rest

/-- `strings.ReplaceAll(path, "/", separator)` from `cleanse.go`, realized as a
split at `/` followed by a join with the (single-character, `/`) separator. -/
def replaceSep (l : List Char) : List Char := joinSlash (splitSlash l)

/-- One step of Go `path.Clean`'s segment processing: empty and `.` segments
are dropped; `..` pops the last kept segment, except that at the top of a
rooted path it is dropped and at the top of an unrooted path it is kept. -/
def stepSeg (rooted : Bool) (acc : List (List Char)) (s : List Char) : List (List Char) :=
  if s = [] ∨ s = ['.'] then acc
  else if s = ['.', '.'] then
    match acc with
    | [] => if rooted then [] else [['.', '.']]
    | t :: acc' => if t = ['.', '.'] then ['.', '.'] :: t :: acc' else acc'
  else s :: acc

/-- Go `path.Clean`'s segment pass, folded over the split path. -/
def cleanStack (rooted : Bool) (acc : List (List Char)) (segs : List (List Char)) :
    List (List Char) :=
  segs.foldl (stepSeg rooted) acc

/-- Go's `path.Clean`, written segment-wise: lexical simplification of a
slash-separated path.  Returns `"."` for an empty result, keeps a leading
slash, keeps leading `..` segments of unrooted paths. -/
def goClean (l : List Char) : List Char :=
  if l = [] then ['.']
  else
    let rooted := l.head? = some '/'
    let stack := cleanStack rooted [] (splitSlash l)
    let body := joinSlash stack.reverse
    if rooted then '/' :: body
    else if body = [] then ['.'] else body

/-- Helper for `strings.TrimPrefix`: `some` of the remainder when the first
argument prefixes the second, else `none`. -/
def trimPreAux : List Char → List Char → Option (List Char)
  | [], l => some l
  | _ :: _, [] => none
  | p :: ps, c :: cs => if p = c then trimPreAux ps cs else none

/-- Go's `strings.TrimPrefix`. -/
def trimPre (pre l : List Char) : List Char := (trimPreAux pre l).getD l

/-- `cleanse` from `cleanse.go`, over character lists: replace `/` by the
separator, `path.Clean`, strip a leading `./` and a leading `/`, and map the
result `.` to the empty (root) path. -/
def cleanseL (l : List Char) : List Char :=
  let l₁ := replaceSep l
  let l₂ := goClean l₁
  let l₃ := trimPre ['.', '/'] l₂
  let l₄ := trimPre ['/'] l₃
  if l₄ = ['.'] then [] else l₄

/-- `cleanse` from `cleanse.go`. -/
def cleanse (p : String) : String := String.mk (cleanseL p.data)

/-! ## Node tree and filesystem façade

Modelled from the spec: the node tree, its mutation/query engine and the
façade operations are described in §3–§4 of the specification, but their
defining source file is not among the provided sources (only `cleanse.go`
and the test file are).  The model below follows the spec's words:

* a `Node` is a File (metadata plus a two-state content union
  `Resolved(bytes) | Unresolved(loader)`) or a Directory (metadata plus a
  mapping from child name to child node);
* nodes live in a shared heap (`store`, a finite map from numeric node ids
  to nodes) so that reference semantics — live read handles, in-place
  overwrite, clone independence — are observable;
* byte buffers are lists of bytes, timestamps are drawn from an abstract
  deterministic time source, the opaque `sys` value is an optional number;
* a lazy loader is a deferred content producer, modelled by the content it
  will produce together with an identity; the world records the identities
  of the loaders that have been invoked, so that "runs at most once" is a
  statement about that record.  Loader failure is left out: the spec marks
  failure-retry behaviour as an open question and no claim depends on it.
-/

/-- Byte strings. -/
abbrev Bytes := List Nat

/-- Modelled from the spec: a deferred content-producing function, identified
by `lid` and producing `result` when invoked. -/
structure Loader where
  lid : Nat
  result : Bytes
deriving DecidableEq, Repr

/-- Modelled from the spec: the explicit two-state content union of a File
node — `Unresolved(loader)` or `Resolved(bytes)`. -/
inductive FileData where
  | resolved (content : Bytes)
  | unresolved (loader : Loader)
deriving DecidableEq, Repr

/-- Modelled from the spec: a File node's own data — mode bits, modification
time, opaque `sys` value, and the content union. -/
structure FileNode where
  mode : Nat
  modTime : Nat
  sys : Option Nat
  data : FileData
deriving DecidableEq, Repr

/-- Modelled from the spec: a Directory node's own data; `children` maps each
child name to the child's node id (names unique within a directory). -/
structure DirNode where
  mode : Nat
  modTime : Nat
  sys : Option Nat
  children : List (String × Nat)
deriving DecidableEq, Repr

/-- Modelled from the spec: the tagged-union tree node, a File or a
Directory. -/
inductive Node where
  | file (f : FileNode)
  | dir (d : DirNode)
deriving DecidableEq, Repr

/-- The node heap: a finite map from node id to node. -/
abbrev Store := List (Nat × Node)

/-- Modelled from the spec: the shared mutable world — the node heap, the
next fresh node id, the active (deterministic) time source value, and the
record of loader identities invoked so far (ghost state used to express the
"loader runs at most once" contract). -/
structure World where
  store : Store
  nextId : Nat
  time : Nat
  runLog : List Nat
deriving DecidableEq, Repr

/-- Modelled from the spec (§7): the error taxonomy — NotFound,
NotADirectory, NotEmpty, InvalidArgument. -/
inductive FsErr where
  | notFound
  | notADirectory
  | notEmpty
  | invalidArgument
deriving DecidableEq, Repr

/-- Heap lookup (first entry with the given id). -/
def findN : Store → Nat → Option Node
  | [], _ => none
  | (i, n) :: rest, id => if i = id then some n else findN rest id

/-- Heap update: replace the node stored at an existing id, in place. -/
def setN : Store → Nat → Node → Store
  | [], _, _ => []
  | (i, m) :: rest, id, n => if i = id then (i, n) :: rest else (i, m) :: setN rest id n

/-- Child lookup in a directory's children mapping. -/
def childGet : List (String × Nat) → String → Option Nat
  | [], _ => none
  | (s, i) :: rest, name => if s = name then some i else childGet rest name

/-- Map-style insert/overwrite of a named child. -/
def childSet (cs : List (String × Nat)) (name : String) (id : Nat) : List (String × Nat) :=
  (name, id) :: cs.filter (fun e => e.1 ≠ name)

/-- Map-style removal of a named child. -/
def childDel (cs : List (String × Nat)) (name : String) : List (String × Nat) :=
  cs.filter (fun e => e.1 ≠ name)

/-- The child ids referenced by a node. -/
def childIds : Node → List Nat
  | .file _ => []
  | .dir d => d.children.map Prod.snd

/-- Allocate a node at the next fresh id. -/
def alloc (w : World) (n : Node) : World :=
  { w with store := (w.nextId, n) :: w.store, nextId := w.nextId + 1 }

/-- Allocate a node and link it as a fresh child of the directory stored at
`id`: the common creation step of `insertFile` and `ensureDirectory`. -/
def linkChild (w : World) (id : Nat) (d : DirNode) (name : String) (nn : Node) : World :=
  let w₁ := alloc w nn
  { w₁ with store := setN w₁.store id (.dir { d with children := childSet d.children name w.nextId }) }

/-- Modelled from the spec (§4.2): the canonical segment list of a caller
path — the path is first passed through the normalizer, and the empty
(root) path has no segments. -/
def parts (p : String) : List String :=
  match cleanseL p.data with
  | [] => []
  | l => (splitSlash l).map (fun s => String.mk s)

/-- Modelled from the spec (§4.1): segment-by-segment descent from a node.
The empty path resolves to the starting node; a non-directory intermediate
fails NotADirectory; a missing child fails NotFound. -/
def resolveFrom (st : Store) (id : Nat) : List String → Except FsErr Nat
  | [] => .ok id
  | s :: rest =>
    match findN st id with
    | some (.dir d) =>
      match childGet d.children s with
      | some cid => resolveFrom st cid rest
      | none => .error .notFound
    | some (.file _) => .error .notADirectory
    | none => .error .notFound

/-- The directory flag bit of a Go `fs.FileMode` (`fs.ModeDir = 1 << 31`). -/
def ModeDirBit : Nat := 2 ^ 31

/-- Whether a mode carries the directory flag. -/
def hasDirBit (m : Nat) : Bool := m.testBit 31

/-- Modelled from the spec (§4.1, `insertFile`): descend from a directory
node creating missing intermediate directories, then insert or overwrite the
named child file.  Overwrite is an in-place content/loader/mode/time
replacement on the existing File node (the node id is kept, so earlier
handles observe the update); an existing Directory at the target — the root
included — fails InvalidArgument.  Missing intermediate directories are
created with the written file's permission bits (the spec fixes only that
they are created). -/
def insertFileAt (w : World) (id : Nat) (f : FileNode) : List String → Except FsErr World
  | [] => .error .invalidArgument
  | [name] =>
    match findN w.store id with
    | some (.dir d) =>
      match childGet d.children name with
      | some cid =>
        match findN w.store cid with
        | some (.dir _) => .error .invalidArgument
        | some (.file old) =>
          .ok { w with store := setN w.store cid (.file { f with sys := old.sys }) }
        | none => .error .notFound
      | none => .ok (linkChild w id d name (.file f))
    | some (.file _) => .error .notADirectory
    | none => .error .notFound
  | name :: seg :: rest =>
    match findN w.store id with
    | some (.dir d) =>
      match childGet d.children name with
      | some cid => insertFileAt w cid f (seg :: rest)
      | none =>
        insertFileAt
          (linkChild w id d name (.dir { mode := f.mode, modTime := w.time, sys := none, children := [] }))
          w.nextId f (seg :: rest)
    | some (.file _) => .error .notADirectory
    | none => .error .notFound

/-- Modelled from the spec (§4.2, `writeFile`): reject a mode carrying the
directory flag with InvalidArgument, then insert a file with immediately
materialized content, timestamped by the active time source. -/
def writeFile (w : World) (r : Nat) (p : String) (bytes : Bytes) (m : Nat) : Except FsErr World :=
  if hasDirBit m then .error .invalidArgument
  else insertFileAt w r { mode := m, modTime := w.time, sys := none, data := .resolved bytes } (parts p)

/-- Modelled from the spec (§4.2, `writeLazyFile`): like `writeFile` but the
content is stored unresolved, to be produced by the loader on first read. -/
def writeLazyFile (w : World) (r : Nat) (p : String) (ldr : Loader) (m : Nat) : Except FsErr World :=
  if hasDirBit m then .error .invalidArgument
  else insertFileAt w r { mode := m, modTime := w.time, sys := none, data := .unresolved ldr } (parts p)

/-- Modelled from the spec (§4.2, `mkdirAll`): descend creating missing
directories with the supplied mode; succeed idempotently on an existing
directory; fail NotADirectory when an existing segment is a File. -/
def mkdirAllAt (w : World) (id : Nat) (m : Nat) : List String → Except FsErr World
  | [] =>
    match findN w.store id with
    | some (.dir _) => .ok w
    | some (.file _) => .error .notADirectory
    | none => .error .notFound
  | s :: rest =>
    match findN w.store id with
    | some (.dir d) =>
      match childGet d.children s with
      | some cid => mkdirAllAt w cid m rest
      | none =>
        mkdirAllAt
          (linkChild w id d s (.dir { mode := m, modTime := w.time, sys := none, children := [] }))
          w.nextId m rest
    | some (.file _) => .error .notADirectory
    | none => .error .notFound

/-- Façade `mkdirAll`. -/
def mkdirAll (w : World) (r : Nat) (p : String) (m : Nat) : Except FsErr World :=
  mkdirAllAt w r m (parts p)

/-- Modelled from the spec (§3, §4.2): resolve a file node's content fully,
forcing the loader if the content is still unresolved; a forced loader is
cleared, its result cached in the node, and its identity recorded in the
world's invocation record.  Reading a directory's bytes is not possible and
fails InvalidArgument. -/
def forceAt (w : World) (id : Nat) : Except FsErr (Bytes × World) :=
  match findN w.store id with
  | some (.file f) =>
    match f.data with
    | .resolved c => .ok (c, w)
    | .unresolved ldr =>
      .ok (ldr.result,
        { w with store := setN w.store id (.file { f with data := .resolved ldr.result }),
                 runLog := w.runLog ++ [ldr.lid] })
  | some (.dir _) => .error .invalidArgument
  | none => .error .notFound

/-- Modelled from the spec (§4.2, `readFile`): resolve the path, force the
content if needed, and return the bytes. -/
def readFile (w : World) (r : Nat) (p : String) : Except FsErr (Bytes × World) :=
  match resolveFrom w.store r (parts p) with
  | .ok id => forceAt w id
  | .error e => .error e

/-- The bytes a `readFile` returns, without the updated world. -/
def readView (w : World) (r : Nat) (p : String) : Except FsErr Bytes :=
  match readFile w r p with
  | .ok (bs, _) => .ok bs
  | .error e => .error e

/-- The stat view of a node: name, size, mode, modTime, sys, isDir. -/
structure FileInfo where
  name : String
  size : Nat
  mode : Nat
  modTime : Nat
  sys : Option Nat
  isDir : Bool
deriving DecidableEq, Repr

/-- A file's reported size: its materialized content length (an unresolved
lazy file has not materialized any bytes yet). -/
def dataLen : FileData → Nat
  | .resolved c => c.length
  | .unresolved _ => 0

/-- The name `stat` reports for a path: its last canonical segment, or `.`
for the root. -/
def lastName (p : String) : String :=
  (parts p).getLast?.getD "."

/-- Modelled from the spec (§4.2, `stat`): a file reports its content
length as size and its stored mode; a directory reports the fixed constant
256 as size and its stored mode with the directory flag set. -/
def statNode (st : Store) (name : String) (id : Nat) : Except FsErr FileInfo :=
  match findN st id with
  | some (.file f) =>
    .ok { name := name, size := dataLen f.data, mode := f.mode,
          modTime := f.modTime, sys := f.sys, isDir := false }
  | some (.dir d) =>
    .ok { name := name, size := 256, mode := d.mode ||| ModeDirBit,
          modTime := d.modTime, sys := d.sys, isDir := true }
  | none => .error .notFound

/-- Façade `stat`. -/
def stat (w : World) (r : Nat) (p : String) : Except FsErr FileInfo :=
  match resolveFrom w.store r (parts p) with
  | .ok id => statNode w.store (lastName p) id
  | .error e => .error e

/-- Modelled from the spec (§4.4): an open handle holds a reference to the
node (its id), not a content snapshot, plus a read offset. -/
structure Handle where
  nodeId : Nat
  offset : Nat
deriving DecidableEq, Repr

/-- Modelled from the spec (§4.2, `open`): resolve the path and hand out a
handle on the node with offset 0. -/
def openPath (w : World) (r : Nat) (p : String) : Except FsErr Handle :=
  match resolveFrom w.store r (parts p) with
  | .ok id => .ok { nodeId := id, offset := 0 }
  | .error e => .error e

/-- Modelled from the spec (§4.4): reading a handle to exhaustion reads the
node's current content (forcing the loader if still pending) from the
handle's offset on, and advances the offset to the content length at the
time of the call.  A handle on a directory is not byte-readable. -/
def readAllHandle (w : World) (h : Handle) : Except FsErr (Bytes × Handle × World) :=
  match forceAt w h.nodeId with
  | .ok (c, w') => .ok (c.drop h.offset, { h with offset := Nat.max h.offset c.length }, w')
  | .error e => .error e

/-- Modelled from the spec (§4.1, `unlink`): resolve the parent directory
and detach the named child only if it is a File or an empty Directory; a
non-empty Directory fails NotEmpty.  The root itself cannot be unlinked.
The detached node is only removed from its parent's children mapping (it
stays in the heap, so handles still referencing it keep working). -/
def removeAt (w : World) (id : Nat) : List String → Except FsErr World
  | [] => .error .invalidArgument
  | [name] =>
    match findN w.store id with
    | some (.dir d) =>
      match childGet d.children name with
      | some cid =>
        match findN w.store cid with
        | some (.file _) =>
          .ok { w with store := setN w.store id (.dir { d with children := childDel d.children name }) }
        | some (.dir cd) =>
          if cd.children.isEmpty then
            .ok { w with store := setN w.store id (.dir { d with children := childDel d.children name }) }
          else .error .notEmpty
        | none => .error .notFound
      | none => .error .notFound
    | some (.file _) => .error .notADirectory
    | none => .error .notFound
  | name :: seg :: rest =>
    match findN w.store id with
    | some (.dir d) =>
      match childGet d.children name with
      | some cid => removeAt w cid (seg :: rest)
      | none => .error .notFound
    | some (.file _) => .error .notADirectory
    | none => .error .notFound

/-- Façade `remove`. -/
def remove (w : World) (r : Nat) (p : String) : Except FsErr World :=
  removeAt w r (parts p)

/-- Modelled from the spec (§4.1, `unlinkAll`): detach the named child and
thereby its entire subtree unconditionally; on the root path, clear all of
the root's children but keep the root itself. -/
def removeAllAt (w : World) (id : Nat) : List String → Except FsErr World
  | [] =>
    match findN w.store id with
    | some (.dir d) => .ok { w with store := setN w.store id (.dir { d with children := [] }) }
    | some (.file _) => .error .notADirectory
    | none => .error .notFound
  | [name] =>
    match findN w.store id with
    | some (.dir d) =>
      match childGet d.children name with
      | some _ =>
        .ok { w with store := setN w.store id (.dir { d with children := childDel d.children name }) }
      | none => .error .notFound
    | some (.file _) => .error .notADirectory
    | none => .error .notFound
  | name :: seg :: rest =>
    match findN w.store id with
    | some (.dir d) =>
      match childGet d.children name with
      | some cid => removeAllAt w cid (seg :: rest)
      | none => .error .notFound
    | some (.file _) => .error .notADirectory
    | none => .error .notFound

/-- Façade `removeAll`. -/
def removeAll (w : World) (r : Nat) (p : String) : Except FsErr World :=
  removeAllAt w r (parts p)

/-- Modelled from the spec (§4.2, `setMode`): locate the node and overwrite
its stored mode bits. -/
def setMode (w : World) (r : Nat) (p : String) (m : Nat) : Except FsErr World :=
  match resolveFrom w.store r (parts p) with
  | .ok id =>
    match findN w.store id with
    | some (.file f) => .ok { w with store := setN w.store id (.file { f with mode := m }) }
    | some (.dir d) => .ok { w with store := setN w.store id (.dir { d with mode := m }) }
    | none => .error .notFound
  | .error e => .error e

/-- Shift every child reference of a node by `n`. -/
def shiftNode (n : Nat) : Node → Node
  | .file f => .file f
  | .dir d => .dir { d with children := d.children.map (fun e => (e.1, e.2 + n)) }

/-- Modelled from the spec (§4.2, `clone`): produce an independent façade
whose entire node graph is a deep copy — every node is duplicated under a
fresh id (its children references shifted accordingly), loaders are copied
but not forced — and return the copy's root.  The copy shares the world's
heap with the source but touches only fresh ids. -/
def clone (w : World) (r : Nat) : World × Nat :=
  let n := w.nextId
  ({ w with store := w.store ++ w.store.map (fun e => (e.1 + n, shiftNode n e.2)),
            nextId := n + n },
   r + n)

/-- Modelled from the spec and `New()` in the tests: a fresh filesystem —
one root directory with empty name, no children, and mode `0o700`
(reported with the directory flag). -/
def newWorld : World :=
  { store := [(0, .dir { mode := 0o700, modTime := 0, sys := none, children := [] })],
    nextId := 1, time := 0, runLog := [] }

/-- A façade operation, for stating properties over arbitrary sequences of
public mutations and reads performed through one root. -/
inductive Op where
  | write (p : String) (bytes : Bytes) (m : Nat)
  | writeLazy (p : String) (ldr : Loader) (m : Nat)
  | mkdir (p : String) (m : Nat)
  | rm (p : String)
  | rmAll (p : String)
  | read (p : String)
  | chmod (p : String) (m : Nat)
deriving DecidableEq, Repr

/-- Apply one façade operation through root `r`; a failed operation leaves
the world unchanged (every error is returned to the caller, §7). -/
def applyOp (w : World) (r : Nat) : Op → World
  | .write p bytes m => match writeFile w r p bytes m with | .ok w' => w' | .error _ => w
  | .writeLazy p ldr m => match writeLazyFile w r p ldr m with | .ok w' => w' | .error _ => w
  | .mkdir p m => match mkdirAll w r p m with | .ok w' => w' | .error _ => w
  | .rm p => match remove w r p with | .ok w' => w' | .error _ => w
  | .rmAll p => match removeAll w r p with | .ok w' => w' | .error _ => w
  | .read p => match readFile w r p with | .ok (_, w') => w' | .error _ => w
  | .chmod p m => match setMode w r p m with | .ok w' => w' | .error _ => w

/-- Apply a sequence of façade operations through root `r`. -/
def applyOps (w : World) (r : Nat) : List Op → World
  | [] => w
  | op :: rest => applyOps (applyOp w r op) r rest

/-- Apply a sequence of `readFile` calls (by path) through root `r`. -/
def applyReads (w : World) (r : Nat) : List String → World
  | [] => w
  | p :: rest => applyReads (applyOp w r (.read p)) r rest

/-- Whether a node is a file whose content is still pending on the loader
with identity `lid`. -/
def pendsOn (n : Node) (lid : Nat) : Bool :=
  match n with
  | .file f =>
    match f.data with
    | .unresolved ldr => ldr.lid = lid
    | .resolved _ => false
  | .dir _ => false

/-- How many entries of a heap still pend on loader `lid`. -/
def pendCountS (st : Store) (lid : Nat) : Nat :=
  (st.filter (fun e => pendsOn e.2 lid)).length

/-- How many heap entries still pend on loader `lid`. -/
def pendCount (w : World) (lid : Nat) : Nat :=
  pendCountS w.store lid

/-- The structural skeleton of a heap lookup: present or absent, file or
directory, and a directory's children — exactly what path resolution
inspects. -/
def skel : Option Node → Option (Option (List (String × Nat)))
  | none => none
  | some (.file _) => some none
  | some (.dir d) => some (some d.children)

/-- How many times loader `lid` has been invoked. -/
def runCount (w : World) (lid : Nat) : Nat :=
  w.runLog.count lid

/-- Well-formedness of a world: every heap id is below `nextId`, heap keys
are distinct, and every child reference points from a lower id to a higher
id that is present in the heap. -/
def WF (w : World) : Prop :=
  (∀ e ∈ w.store, e.1 < w.nextId) ∧
  (w.store.map Prod.fst).Nodup ∧
  (∀ e ∈ w.store, ∀ c ∈ childIds e.2, e.1 < c ∧ (findN w.store c).isSome)

instance : DecidablePred WF := fun w => by
  unfold WF; infer_instance

/-! ## Canonical path shape -/

/-- A well-formed non-special path segment: nonempty, not `.`, slash-free. -/
def okSeg (s : List Char) : Prop := s ≠ [] ∧ s ≠ ['.'] ∧ '/' ∉ s

/-- Canonical segment shape: a (possibly empty) leading run of `..` segments
followed by ordinary segments — no empty segments, no `.` segments, and `..`
nowhere but in the leading run. -/
def CanonSegs (segs : List (List Char)) : Prop :=
  ∃ ds ns, segs = ds ++ ns ∧ (∀ s ∈ ds, s = ['.', '.']) ∧
    (∀ s ∈ ns, okSeg s ∧ s ≠ ['.', '.'])

/-- Canonical path shape: the root (empty) path, or a nonempty path whose
slash-split is canonical — in particular it has no leading, trailing or
doubled separator and no `.` segment. -/
def CanonL (l : List Char) : Prop :=
  l = [] ∨ (l ≠ [] ∧ CanonSegs (splitSlash l))

/-- Double every slash of a path (`a/b` becomes `a//b`). -/
def dupSlash : List Char → List Char
  | [] => []
  | c :: rest => if c = '/' then '/' :: '/' :: dupSlash rest else c :: dupSlash rest

/-- Insert an empty field between adjacent fields: the effect of `dupSlash`
on the slash-split of a path. -/
def addE : List (List Char) → List (List Char)
  | [] => []
  | [s] => [s]
  | s :: rest => s :: [] :: addE rest

/-- The world a successful façade call produced, or a fallback. -/
def okOr (x : Except FsErr World) (dflt : World) : World :=
  match x with
  | .ok w => w
  | .error _ => dflt

/-- The handle a successful `openPath` produced, or a fallback. -/
def okOrH (x : Except FsErr Handle) (dflt : Handle) : Handle :=
  match x with
  | .ok h => h
  | .error _ => dflt

/-- Concrete worlds used to instantiate the proved theorems. -/
def exW1 : World := okOr (writeFile newWorld 0 "docs/a.txt" [1, 2, 3] 0o644) newWorld

def exH1 : Handle := okOrH (openPath exW1 0 "docs/a.txt") { nodeId := 0, offset := 0 }

def exW2 : World := okOr (writeFile exW1 0 "docs/a.txt" [7, 7] 0o644) exW1

def exW3 : World := okOr (mkdirAll exW1 0 "sub/dir" 0o700) exW1

def exW4 : World := okOr (setMode exW3 0 "sub" 0o777) exW3

def exW5 : World := okOr (writeLazyFile exW1 0 "lazy.txt" { lid := 5, result := [8, 9] } 0o644) exW1

def exW6 : World := okOr (removeAll exW3 0 "sub") exW3

def exW7 : World := okOr (writeFile (applyReads exW5 0 ["lazy.txt"]) 0 "lazy.txt" [4] 0o600)
  (applyReads exW5 0 ["lazy.txt"])

def exClone : World × Nat := clone exW1 0

def exW8 : World := applyOps exClone.1 exClone.2 [.write "second.txt" [4] 0o644, .rm "docs/a.txt"]

def exW9 : World := applyOps exClone.1 0 [.write "third.txt" [5] 0o644]

def exW10 : World := okOr
  (writeLazyFile (applyReads exW5 0 ["lazy.txt"]) 0 "lazy.txt" { lid := 6, result := [1, 1] } 0o600)
  (applyReads exW5 0 ["lazy.txt"])

/-- A heap side: the set of node ids (given as a Boolean predicate) that a
sequence of operations through one root is allowed to touch.  The side is
closed when every child of a node on the side is on the side too. -/
def sideClosed (A : Nat → Bool) (st : Store) : Prop :=
  ∀ e ∈ st, A e.1 = true → ∀ c ∈ childIds e.2, A c = true

/-- Fresh allocations fall on side `A`. -/
def sideFresh (A : Nat → Bool) (w : World) : Prop :=
  ∀ i, w.nextId ≤ i → A i = true

/-- The frame contract of a mutation confined to side `A`: heap lookups off
the side are untouched, the side stays closed, fresh ids stay on the side,
and the id supply only grows. -/
def sideFrame (A : Nat → Bool) (w w' : World) : Prop :=
  (∀ i, A i = false → findN w'.store i = findN w.store i) ∧
  sideClosed A w'.store ∧ sideFresh A w' ∧ w.nextId ≤ w'.nextId

/-! ## Lemmas about the path normalizer -/

theorem splitSlash_ne_nil (l : List Char) : splitSlash l ≠ [] := by
  induction l with
  | nil => simp [splitSlash]
  | cons c rest ih =>
    simp only [splitSlash]
    split
    · simp
    · cases h : splitSlash rest with
      | nil => exact absurd h ih
      | cons s ss => simp

theorem join_split (l : List Char) : joinSlash (splitSlash l) = l := by
  induction l with
  | nil => simp [splitSlash, joinSlash]
  | cons c rest ih =>
    simp only [splitSlash]
    split
    · rename_i hc
      subst hc
      cases h : splitSlash rest with
      | nil => exact absurd h (splitSlash_ne_nil rest)
      | cons s ss =>
        rw [h] at ih
        simp [joinSlash]
        cases ss with
        | nil => simp [joinSlash] at ih ⊢; exact ih
        | cons t ts => simp [joinSlash] at ih ⊢; exact ih
    · rename_i hc
      cases h : splitSlash rest with
      | nil => exact absurd h (splitSlash_ne_nil rest)
      | cons s ss =>
        rw [h] at ih
        cases ss with
        | nil => simpa [joinSlash] using ih
        | cons t ts => simpa [joinSlash] using ih

theorem splitSlash_no_slash (l : List Char) : ∀ s ∈ splitSlash l, '/' ∉ s := by
  induction l with
  | nil => simp [splitSlash]
  | cons c rest ih =>
    simp only [splitSlash]
    split
    · intro s hs
      rcases List.mem_cons.mp hs with h | h
      · subst h; simp
      · exact ih s h
    · rename_i hc
      cases h : splitSlash rest with
      | nil => exact absurd h (splitSlash_ne_nil rest)
      | cons t ts =>
        intro s hs
        rcases List.mem_cons.mp hs with h' | h'
        · subst h'
          intro hmem
          rcases List.mem_cons.mp hmem with h'' | h''
          · exact hc h''.symm
          · have := ih t (h ▸ List.mem_cons_self t ts)
            exact this h''
        · exact ih s (h ▸ List.mem_cons_of_mem t h')

theorem splitSlash_free (s : List Char) (hs : '/' ∉ s) : splitSlash s = [s] := by
  induction s with
  | nil => simp [splitSlash]
  | cons c cs ih =>
    have hc : c ≠ '/' := fun h => hs (h ▸ List.mem_cons_self c cs)
    have hcs : '/' ∉ cs := fun h => hs (List.mem_cons_of_mem c h)
    simp only [splitSlash]
    rw [if_neg (fun h => hc h), ih hcs]

theorem splitSlash_append_slash (s rest : List Char) (hs : '/' ∉ s) :
    splitSlash (s ++ '/' :: rest) = s :: splitSlash rest := by
  induction s with
  | nil => simp [splitSlash]
  | cons c cs ih =>
    have hc : c ≠ '/' := fun h => hs (h ▸ List.mem_cons_self c cs)
    have hcs : '/' ∉ cs := fun h => hs (List.mem_cons_of_mem c h)
    simp only [List.cons_append, splitSlash]
    rw [if_neg (fun h => hc h)]
    simp only [List.append_eq]
    rw [ih hcs]

theorem split_join (segs : List (List Char)) (hne : segs ≠ [])
    (hfree : ∀ s ∈ segs, '/' ∉ s) : splitSlash (joinSlash segs) = segs := by
  induction segs with
  | nil => exact absurd rfl hne
  | cons s rest ih =>
    cases rest with
    | nil => simpa [joinSlash] using splitSlash_free s (hfree s (by simp))
    | cons t ts =>
      have hs : '/' ∉ s := hfree s (by simp)
      have hrest : ∀ u ∈ t :: ts, '/' ∉ u := fun u hu => hfree u (List.mem_cons_of_mem s hu)
      simp only [joinSlash]
      rw [splitSlash_append_slash _ _ hs, ih (by simp) hrest]

theorem cleanStack_cons (rooted : Bool) (acc : List (List Char)) (s : List Char)
    (rest : List (List Char)) :
    cleanStack rooted acc (s :: rest) = cleanStack rooted (stepSeg rooted acc s) rest := rfl

theorem cleanStack_skip (rooted : Bool) (acc : List (List Char)) (s : List Char)
    (rest : List (List Char)) (h : s = [] ∨ s = ['.']) :
    cleanStack rooted acc (s :: rest) = cleanStack rooted acc rest := by
  rw [cleanStack_cons]
  have : stepSeg rooted acc s = acc := by
    simp only [stepSeg]
    rw [if_pos h]
  rw [this]

theorem cleanStack_push (rooted : Bool) (acc : List (List Char)) (s : List Char)
    (rest : List (List Char)) (h1 : ¬(s = [] ∨ s = ['.'])) (h2 : s ≠ ['.', '.']) :
    cleanStack rooted acc (s :: rest) = cleanStack rooted (s :: acc) rest := by
  rw [cleanStack_cons]
  have : stepSeg rooted acc s = s :: acc := by
    simp only [stepSeg]
    rw [if_neg h1, if_neg h2]
  rw [this]

theorem cleanStack_dd_nil (rooted : Bool) (rest : List (List Char)) :
    cleanStack rooted [] (['.', '.'] :: rest) =
      cleanStack rooted (if rooted then [] else [['.', '.']]) rest := by
  rw [cleanStack_cons]
  have : stepSeg rooted [] ['.', '.'] = (if rooted then [] else [['.', '.']]) := by
    simp [stepSeg]
  rw [this]

theorem cleanStack_dd_pop (rooted : Bool) (t : List Char) (acc' : List (List Char))
    (rest : List (List Char)) (ht : t ≠ ['.', '.']) :
    cleanStack rooted (t :: acc') (['.', '.'] :: rest) = cleanStack rooted acc' rest := by
  rw [cleanStack_cons]
  have : stepSeg rooted (t :: acc') ['.', '.'] = acc' := by
    simp [stepSeg, ht]
  rw [this]

theorem cleanStack_dd_keep (rooted : Bool) (acc' : List (List Char))
    (rest : List (List Char)) :
    cleanStack rooted (['.', '.'] :: acc') (['.', '.'] :: rest) =
      cleanStack rooted (['.', '.'] :: ['.', '.'] :: acc') rest := by
  rw [cleanStack_cons]
  have : stepSeg rooted (['.', '.'] :: acc') ['.', '.'] = ['.', '.'] :: ['.', '.'] :: acc' := by
    simp [stepSeg]
  rw [this]

theorem cleanStack_dd_run (ds : List (List Char)) :
    ∀ acc rest, (∀ s ∈ ds, s = ['.', '.']) → (∀ t ∈ acc, t = ['.', '.']) →
    cleanStack false acc (ds ++ rest) = cleanStack false (ds.reverse ++ acc) rest := by
  induction ds with
  | nil => intro acc rest _ _; simp
  | cons s ds' ih =>
    intro acc rest hds hacc
    have hs : s = ['.', '.'] := hds s (by simp)
    subst hs
    have hstep : cleanStack false acc (['.', '.'] :: (ds' ++ rest)) =
        cleanStack false (['.', '.'] :: acc) (ds' ++ rest) := by
      have harg : stepSeg false acc ['.', '.'] = ['.', '.'] :: acc := by
        cases acc with
        | nil => simp [stepSeg]
        | cons t acc' =>
          have ht : t = ['.', '.'] := hacc t (by simp)
          subst ht
          simp [stepSeg]
      rw [cleanStack_cons, harg]
    rw [List.cons_append, hstep, ih (['.', '.'] :: acc) rest
      (fun u hu => hds u (List.mem_cons_of_mem _ hu))
      (fun t ht => (List.mem_cons.mp ht).elim id (hacc t))]
    simp

theorem cleanStack_norm_run (ns : List (List Char)) :
    ∀ rooted acc rest, (∀ s ∈ ns, okSeg s ∧ s ≠ ['.', '.']) →
    cleanStack rooted acc (ns ++ rest) = cleanStack rooted (ns.reverse ++ acc) rest := by
  induction ns with
  | nil => intro rooted acc rest _; simp
  | cons s ns' ih =>
    intro rooted acc rest hns
    obtain ⟨⟨hne, hdot, _⟩, hdd⟩ := hns s (by simp)
    have hstep : cleanStack rooted acc (s :: (ns' ++ rest)) =
        cleanStack rooted (s :: acc) (ns' ++ rest) := by
      have harg : stepSeg rooted acc s = s :: acc := by
        simp only [stepSeg]
        rw [if_neg (by simp [hne, hdot]), if_neg hdd]
      rw [cleanStack_cons, harg]
    rw [List.cons_append, hstep,
      ih rooted (s :: acc) rest (fun u hu => hns u (List.mem_cons_of_mem _ hu))]
    simp

theorem cleanStack_shape (rooted : Bool) (segs : List (List Char)) :
    ∀ acc, (∀ s ∈ segs, '/' ∉ s) →
    (∃ ns ds, acc = ns ++ ds ∧ (∀ s ∈ ns, okSeg s ∧ s ≠ ['.', '.']) ∧
      (∀ s ∈ ds, s = ['.', '.']) ∧ (rooted = true → ds = [])) →
    ∃ ns ds, cleanStack rooted acc segs = ns ++ ds ∧ (∀ s ∈ ns, okSeg s ∧ s ≠ ['.', '.']) ∧
      (∀ s ∈ ds, s = ['.', '.']) ∧ (rooted = true → ds = []) := by
  induction segs with
  | nil => intro acc _ hacc; simpa [cleanStack] using hacc
  | cons s rest ih =>
    intro acc hfree hacc
    have hfree' : ∀ u ∈ rest, '/' ∉ u := fun u hu => hfree u (List.mem_cons_of_mem s hu)
    obtain ⟨ns, ds, heq, hns, hds, hroot⟩ := hacc
    by_cases h1 : s = [] ∨ s = ['.']
    · rw [cleanStack_skip rooted acc s rest h1]
      exact ih acc hfree' ⟨ns, ds, heq, hns, hds, hroot⟩
    · by_cases h2 : s = ['.', '.']
      · subst h2
        cases hacx : acc with
        | nil =>
          rw [cleanStack_dd_nil]
          apply ih _ hfree'
          cases rooted with
          | true => exact ⟨[], [], by simp, by simp, by simp, fun _ => rfl⟩
          | false => exact ⟨[], [['.', '.']], by simp, by simp, by simp, fun h => by simp at h⟩
        | cons t acc' =>
          subst hacx
          by_cases ht : t = ['.', '.']
          · subst ht
            have hnsnil : ns = [] := by
              cases hnseq : ns with
              | nil => rfl
              | cons a as =>
                exfalso
                rw [hnseq] at heq
                have ha : a = ['.', '.'] := by
                  have := congrArg List.head? heq
                  simpa using this.symm
                exact (hns a (hnseq ▸ by simp)).2 ha
            rw [cleanStack_dd_keep]
            apply ih _ hfree'
            refine ⟨[], ['.', '.'] :: ['.', '.'] :: acc', by simp, by simp, ?_, ?_⟩
            · intro u hu
              rcases List.mem_cons.mp hu with h | h
              · exact h
              · rw [hnsnil, List.nil_append] at heq
                exact hds u (heq ▸ h)
            · intro hr
              exfalso
              rw [hroot hr, hnsnil] at heq
              exact absurd heq (by simp)
          · rw [cleanStack_dd_pop rooted t acc' rest ht]
            cases hnseq : ns with
            | nil =>
              exfalso
              rw [hnseq, List.nil_append] at heq
              exact ht (hds t (heq ▸ List.mem_cons_self t acc'))
            | cons a as =>
              rw [hnseq] at heq
              have htail : acc' = as ++ ds := by
                have := congrArg List.tail heq
                simpa using this
              apply ih _ hfree'
              refine ⟨as, ds, htail, ?_, hds, hroot⟩
              exact fun u hu => hns u (hnseq ▸ List.mem_cons_of_mem a hu)
      · rw [cleanStack_push rooted acc s rest h1 h2]
        apply ih _ hfree'
        refine ⟨s :: ns, ds, by rw [heq]; rfl, ?_, hds, hroot⟩
        intro u hu
        rcases List.mem_cons.mp hu with h | h
        · rw [h]
          refine ⟨⟨?_, ?_, hfree s (by simp)⟩, h2⟩
          · intro hh; exact h1 (Or.inl hh)
          · intro hh; exact h1 (Or.inr hh)
        · exact hns u h

theorem splitSlash_cons_slash (rest : List Char) :
    splitSlash ('/' :: rest) = [] :: splitSlash rest := by
  simp [splitSlash]

theorem splitSlash_cons_ok (c : Char) (rest : List Char) (hc : c ≠ '/')
    (s : List Char) (ss : List (List Char)) (h : splitSlash rest = s :: ss) :
    splitSlash (c :: rest) = (c :: s) :: ss := by
  simp only [splitSlash]
  rw [if_neg (fun hh => hc hh), h]

theorem joinSlash_ne_nil (segs : List (List Char)) (h : segs ≠ [])
    (h2 : ∀ s ∈ segs, s ≠ []) : joinSlash segs ≠ [] := by
  cases segs with
  | nil => exact absurd rfl h
  | cons s rest =>
    cases rest with
    | nil => simpa [joinSlash] using h2 s (by simp)
    | cons t ts =>
      simp only [joinSlash]
      intro hh
      cases s with
      | nil => simp at hh
      | cons a as => simp at hh

theorem trim_noop (l : List Char) (s : List Char) (ss : List (List Char))
    (hsp : splitSlash l = s :: ss) (h0 : s ≠ []) (h1 : s ≠ ['.'])
    (h2 : '/' ∉ s) :
    trimPre ['.', '/'] l = l ∧ trimPre ['/'] l = l := by
  cases l with
  | nil =>
    have : s = [] := by
      have := hsp.symm.trans (by simp [splitSlash] : splitSlash ([] : List Char) = [[]])
      simpa using congrArg List.head? this.symm
    exact absurd this h0
  | cons c rest =>
    have hc : c ≠ '/' := by
      intro hceq
      subst hceq
      rw [splitSlash_cons_slash] at hsp
      exact h0 (by simpa using congrArg List.head? hsp.symm)
    constructor
    · by_cases hcd : c = '.'
      · subst hcd
        cases rest with
        | nil =>
          have : splitSlash ['.'] = [['.']] := by simp [splitSlash]
          rw [this] at hsp
          exact absurd (by simpa using congrArg List.head? hsp.symm) h1
        | cons c₂ r₂ =>
          by_cases hc2 : c₂ = '/'
          · subst hc2
            rw [splitSlash_cons_ok '.' _ (by decide) [] (splitSlash r₂)
              (splitSlash_cons_slash r₂)] at hsp
            exact absurd (by simpa using congrArg List.head? hsp.symm) h1
          · show (trimPreAux ['.', '/'] ('.' :: c₂ :: r₂)).getD _ = _
            have hnone : trimPreAux ['.', '/'] ('.' :: c₂ :: r₂) = none := by
              show (if '.' = '.' then trimPreAux ['/'] (c₂ :: r₂) else none) = none
              rw [if_pos rfl]
              show (if '/' = c₂ then trimPreAux [] r₂ else none) = none
              rw [if_neg (fun hh => hc2 hh.symm)]
            rw [hnone]
            rfl
      · show (trimPreAux ['.', '/'] (c :: rest)).getD _ = _
        have : trimPreAux ['.', '/'] (c :: rest) = none := by
          simp only [trimPreAux]
          rw [if_neg (fun hh => hcd hh.symm)]
        rw [this]
        rfl
    · show (trimPreAux ['/'] (c :: rest)).getD _ = _
      have : trimPreAux ['/'] (c :: rest) = none := by
        simp only [trimPreAux]
        rw [if_neg (fun hh => hc hh.symm)]
      rw [this]
      rfl

theorem canon_first_seg (l : List Char) (hne : l ≠ [])
    (hcs : CanonSegs (splitSlash l)) :
    ∃ s ss, splitSlash l = s :: ss ∧ s ≠ [] ∧ s ≠ ['.'] ∧ '/' ∉ s := by
  obtain ⟨ds, ns, hsplit, hds, hns⟩ := hcs
  cases hdse : ds with
  | cons d ds' =>
    rw [hdse] at hsplit
    have hd : d = ['.', '.'] := hds d (hdse ▸ by simp)
    exact ⟨d, ds' ++ ns, by simpa using hsplit, by simp [hd], by simp [hd], by simp [hd]⟩
  | nil =>
    rw [hdse, List.nil_append] at hsplit
    cases hnse : ns with
    | nil =>
      rw [hnse] at hsplit
      exact absurd hsplit (splitSlash_ne_nil l)
    | cons n ns' =>
      rw [hnse] at hsplit
      obtain ⟨⟨hn0, hn1, hn2⟩, _⟩ := hns n (hnse ▸ by simp)
      exact ⟨n, ns', hsplit, hn0, hn1, hn2⟩

theorem canon_fixed (l : List Char) (h : CanonL l) : cleanseL l = l := by
  rcases h with rfl | ⟨hne, hcs⟩
  · rfl
  · obtain ⟨s, ss, hsp, h0, h1, h2⟩ := canon_first_seg l hne hcs
    obtain ⟨ds, ns, hsplit, hds, hns⟩ := hcs
    have hfree : ∀ u ∈ splitSlash l, '/' ∉ u := splitSlash_no_slash l
    have hrep : replaceSep l = l := join_split l
    have hhead : l.head? ≠ some '/' := by
      cases l with
      | nil => simp
      | cons c rest =>
        intro hh
        have hceq : c = '/' := by simpa using hh
        subst hceq
        rw [splitSlash_cons_slash] at hsp
        exact h0 (by simpa using congrArg List.head? hsp.symm)
    have hnorm_all : ∀ (rooted : Bool) (acc : List (List Char)),
        cleanStack rooted acc ns = ns.reverse ++ acc := by
      intro rooted acc
      have := cleanStack_norm_run ns rooted acc [] hns
      simpa [cleanStack] using this
    have hstack : cleanStack false [] (splitSlash l) = (splitSlash l).reverse := by
      rw [hsplit]
      rw [cleanStack_dd_run ds [] ns hds (by simp)]
      rw [hnorm_all]
      simp [List.reverse_append]
    have hclean : goClean l = l := by
      simp only [goClean]
      rw [if_neg hne]
      rw [decide_eq_false hhead]
      rw [if_neg hhead]
      rw [hstack, List.reverse_reverse, join_split l]
      rw [if_neg hne]
    have hdot : l ≠ ['.'] := by
      intro hl
      subst hl
      have : splitSlash ['.'] = [['.']] := by simp [splitSlash]
      rw [this] at hsp
      exact absurd (by simpa using congrArg List.head? hsp.symm) h1
    obtain ⟨ht1, ht2⟩ := trim_noop l s ss hsp h0 h1 h2
    show (let l₁ := replaceSep l
          let l₂ := goClean l₁
          let l₃ := trimPre ['.', '/'] l₂
          let l₄ := trimPre ['/'] l₃
          if l₄ = ['.'] then [] else l₄) = l
    rw [hrep]
    simp only [hclean, ht1, ht2]
    rw [if_neg hdot]

theorem canon_of_segs (segs : List (List Char)) (hsegne : segs ≠ [])
    (hall : ∀ s ∈ segs, s ≠ [] ∧ s ≠ ['.'] ∧ '/' ∉ s) :
    splitSlash (joinSlash segs) = segs ∧ joinSlash segs ≠ [] ∧ joinSlash segs ≠ ['.'] := by
  have hfree : ∀ s ∈ segs, '/' ∉ s := fun s hs => (hall s hs).2.2
  have hsj : splitSlash (joinSlash segs) = segs := split_join segs hsegne hfree
  refine ⟨hsj, joinSlash_ne_nil segs hsegne (fun s hs => (hall s hs).1), ?_⟩
  intro hdot
  rw [hdot] at hsj
  have : splitSlash ['.'] = [['.']] := by simp [splitSlash]
  rw [this] at hsj
  cases segs with
  | nil => exact hsegne rfl
  | cons s ss =>
    have hs : ['.'] = s := by simpa using congrArg List.head? hsj
    exact (hall s (by simp)).2.1 hs.symm

theorem trimPre_slash_head (body : List Char) :
    trimPre ['.', '/'] ('/' :: body) = '/' :: body ∧ trimPre ['/'] ('/' :: body) = body := by
  constructor
  · show (trimPreAux ['.', '/'] ('/' :: body)).getD _ = _
    have hnone : trimPreAux ['.', '/'] ('/' :: body) = none := by
      show (if '.' = '/' then trimPreAux ['/'] body else none) = none
      rw [if_neg (by decide)]
    rw [hnone]
    rfl
  · show (trimPreAux ['/'] ('/' :: body)).getD _ = _
    have hsome : trimPreAux ['/'] ('/' :: body) = some body := by
      show (if '/' = '/' then trimPreAux [] body else none) = some body
      rw [if_pos rfl]
      rfl
    rw [hsome]
    rfl

theorem canon_cleanse (l : List Char) : CanonL (cleanseL l) := by
  by_cases hne : l = []
  · subst hne; left; rfl
  · have hrep : replaceSep l = l := join_split l
    simp only [cleanseL, hrep]
    by_cases hr : l.head? = some '/'
    · -- rooted path
      obtain ⟨ns, ds, hstack, hns, hds, hroot⟩ :=
        cleanStack_shape true (splitSlash l) [] (splitSlash_no_slash l)
          ⟨[], [], rfl, by simp, by simp, fun _ => rfl⟩
      have hdsnil : ds = [] := hroot rfl
      rw [hdsnil, List.append_nil] at hstack
      have hclean : goClean l = '/' :: joinSlash ns.reverse := by
        simp only [goClean]
        rw [if_neg hne, decide_eq_true hr, if_pos hr, hstack]
      rw [hclean]
      obtain ⟨htrim1, htrim2⟩ := trimPre_slash_head (joinSlash ns.reverse)
      simp only [htrim1, htrim2]
      by_cases hnse : ns = []
      · rw [hnse]
        have h1 : joinSlash (([] : List (List Char)).reverse) = [] := rfl
        rw [h1, if_neg (by decide)]
        exact Or.inl rfl
      · have hrevne : ns.reverse ≠ [] := by simpa using hnse
        have hall : ∀ s ∈ ns.reverse, s ≠ [] ∧ s ≠ ['.'] ∧ '/' ∉ s := by
          intro s hs
          obtain ⟨⟨a, b, c⟩, _⟩ := hns s (List.mem_reverse.mp hs)
          exact ⟨a, b, c⟩
        obtain ⟨hsj, hjne, hjdot⟩ := canon_of_segs ns.reverse hrevne hall
        rw [if_neg hjdot]
        right
        refine ⟨hjne, [], ns.reverse, by simpa using hsj, by simp, ?_⟩
        intro s hs
        exact hns s (List.mem_reverse.mp hs)
    · -- unrooted path
      obtain ⟨ns, ds, hstack, hns, hds, _⟩ :=
        cleanStack_shape false (splitSlash l) [] (splitSlash_no_slash l)
          ⟨[], [], rfl, by simp, by simp, fun h => absurd h (by simp)⟩
      have hclean : goClean l =
          (if joinSlash (ds.reverse ++ ns.reverse) = [] then ['.']
            else joinSlash (ds.reverse ++ ns.reverse)) := by
        simp only [goClean]
        rw [if_neg hne, decide_eq_false hr, if_neg hr, hstack]
        rw [List.reverse_append]
      rw [hclean]
      by_cases hstknil : ds.reverse ++ ns.reverse = []
      · rw [hstknil]
        have h1 : joinSlash ([] : List (List Char)) = [] := rfl
        rw [h1, if_pos rfl]
        have h2 : trimPre ['.', '/'] ['.'] = ['.'] := by decide
        have h3 : trimPre ['/'] ['.'] = ['.'] := by decide
        rw [h2, h3, if_pos rfl]
        exact Or.inl rfl
      · have hall : ∀ s ∈ ds.reverse ++ ns.reverse, s ≠ [] ∧ s ≠ ['.'] ∧ '/' ∉ s := by
          intro s hs
          rcases List.mem_append.mp hs with h | h
          · have := hds s (List.mem_reverse.mp h)
            subst this
            refine ⟨by simp, by simp, by simp⟩
          · obtain ⟨⟨a, b, c⟩, _⟩ := hns s (List.mem_reverse.mp h)
            exact ⟨a, b, c⟩
        obtain ⟨hsj, hjne, hjdot⟩ := canon_of_segs _ hstknil hall
        rw [if_neg hjne]
        obtain ⟨s₀, ss₀, hsp₀⟩ : ∃ s₀ ss₀, ds.reverse ++ ns.reverse = s₀ :: ss₀ := by
          cases h : ds.reverse ++ ns.reverse with
          | nil => exact absurd h hstknil
          | cons a b => exact ⟨a, b, rfl⟩
        have h₀ := hall s₀ (hsp₀ ▸ by simp)
        obtain ⟨htr1, htr2⟩ := trim_noop (joinSlash (ds.reverse ++ ns.reverse)) s₀ ss₀
          (by rw [hsj, hsp₀]) h₀.1 h₀.2.1 h₀.2.2
        rw [htr1, htr2, if_neg hjdot]
        right
        refine ⟨hjne, ds.reverse, ns.reverse, by rw [hsj], ?_, ?_⟩
        · exact fun s hs => hds s (List.mem_reverse.mp hs)
        · exact fun s hs => hns s (List.mem_reverse.mp hs)

theorem replaceSep_id (l : List Char) : replaceSep l = l := join_split l

theorem dupSlash_nil_iff (l : List Char) : dupSlash l = [] ↔ l = [] := by
  cases l with
  | nil => simp [dupSlash]
  | cons c rest =>
    simp only [dupSlash]
    split <;> simp

theorem addE_cons_cons (s t : List Char) (ts : List (List Char)) :
    addE (s :: t :: ts) = s :: [] :: addE (t :: ts) := rfl

theorem splitSlash_dupSlash (l : List Char) :
    splitSlash (dupSlash l) = addE (splitSlash l) := by
  induction l with
  | nil => rfl
  | cons c rest ih =>
    obtain ⟨s', ss', hsp⟩ : ∃ s' ss', splitSlash rest = s' :: ss' := by
      cases h : splitSlash rest with
      | nil => exact absurd h (splitSlash_ne_nil rest)
      | cons a b => exact ⟨a, b, rfl⟩
    by_cases hc : c = '/'
    · subst hc
      have hd : dupSlash ('/' :: rest) = '/' :: '/' :: dupSlash rest := by simp [dupSlash]
      rw [hd, splitSlash_cons_slash, splitSlash_cons_slash, ih]
      rw [splitSlash_cons_slash, hsp, addE_cons_cons]
    · have hd : dupSlash (c :: rest) = c :: dupSlash rest := by simp [dupSlash, hc]
      rw [hd]
      rw [splitSlash_cons_ok c rest hc s' ss' hsp]
      cases ss' with
      | nil =>
        have hdup : splitSlash (dupSlash rest) = [s'] := by rw [ih, hsp]; rfl
        rw [splitSlash_cons_ok c (dupSlash rest) hc s' [] hdup]
        rfl
      | cons t ts =>
        have hdup : splitSlash (dupSlash rest) = s' :: [] :: addE (t :: ts) := by
          rw [ih, hsp, addE_cons_cons]
        rw [splitSlash_cons_ok c (dupSlash rest) hc s' ([] :: addE (t :: ts)) hdup]
        rw [addE_cons_cons]

theorem cleanStack_addE (segs : List (List Char)) :
    ∀ (rooted : Bool) (acc : List (List Char)),
      cleanStack rooted acc (addE segs) = cleanStack rooted acc segs := by
  induction segs with
  | nil => intro _ _; rfl
  | cons s rest ih =>
    cases rest with
    | nil => intro _ _; rfl
    | cons t ts =>
      intro rooted acc
      rw [addE_cons_cons, cleanStack_cons, cleanStack_skip _ _ [] _ (Or.inl rfl),
        ih rooted (stepSeg rooted acc s)]
      rfl

theorem goClean_dupSlash (l : List Char) : goClean (dupSlash l) = goClean l := by
  by_cases hne : l = []
  · subst hne; rfl
  · have hd : dupSlash l ≠ [] := fun h => hne ((dupSlash_nil_iff l).mp h)
    have hhead : (dupSlash l).head? = l.head? := by
      cases l with
      | nil => rfl
      | cons c rest =>
        by_cases hc : c = '/'
        · subst hc; rfl
        · simp [dupSlash, hc]
    simp only [goClean]
    rw [if_neg hd, if_neg hne, hhead, splitSlash_dupSlash, cleanStack_addE]

theorem cleanseL_dupSlash (l : List Char) : cleanseL (dupSlash l) = cleanseL l := by
  simp only [cleanseL, replaceSep_id, goClean_dupSlash]

theorem cleanseL_root_of_goClean (l : List Char)
    (h : goClean l = ['.'] ∨ goClean l = ['/']) : cleanseL l = [] := by
  simp only [cleanseL, replaceSep_id]
  rcases h with h | h <;> rw [h] <;> decide

/-- Claim C7, counterexample: the claim is false as stated — `cleanse` does
not present backslash inputs identically to slash inputs (`a\b` is left
untouched while `a/b` names two segments), and its output is not free of
`..` segments (`..` cleanses to itself). -/
theorem claim_C7_counterexample :
    cleanse "a\\b" ≠ cleanse "a/b" ∧ cleanse ".." = ".." := by
  constructor
  · decide
  · decide

/-- Claim C7, amended: for every raw input path, `cleanse` returns the
canonical separator-joined, root-stripped form — the output has no empty
segments, no `.` segments and no leading separator, and `..` segments occur
only as a leading run — and it presents multi-slash inputs identically to
their single-slash forms (doubling every slash of the input does not change
the output).  Backslashes are ordinary name characters, not separators. -/
theorem claim_C7_cleanse_canonical :
    (∀ p : String, CanonL (cleanse p).data) ∧
    (∀ p : String, cleanse (String.mk (dupSlash p.data)) = cleanse p) := by
  constructor
  · intro p
    exact canon_cleanse p.data
  · intro p
    show String.mk (cleanseL (dupSlash p.data)) = String.mk (cleanseL p.data)
    rw [cleanseL_dupSlash]

/-- Claim C8: `cleanse` is idempotent — for every string `p`,
`cleanse (cleanse p) = cleanse p` — and maps every root-denoting input (an
input whose lexical `path.Clean` yields `.` or `/`: in particular the
leading-slash root `/`, the dot inputs `.` and `./`, and the empty string)
to the empty string denoting the root. -/
theorem claim_C8_cleanse_idempotent :
    (∀ p : String, cleanse (cleanse p) = cleanse p) ∧
    (∀ p : String, goClean p.data = ['.'] ∨ goClean p.data = ['/'] → cleanse p = "") ∧
    cleanse "" = "" ∧ cleanse "/" = "" ∧ cleanse "." = "" ∧ cleanse "./" = "" := by
  refine ⟨?_, ?_, by decide, by decide, by decide, by decide⟩
  · intro p
    show String.mk (cleanseL (cleanse p).data) = String.mk (cleanseL p.data)
    have : (cleanse p).data = cleanseL p.data := rfl
    rw [this, canon_fixed (cleanseL p.data) (canon_cleanse p.data)]
  · intro p h
    show String.mk (cleanseL p.data) = ""
    rw [cleanseL_root_of_goClean p.data h]

/-- Claim C8, witness: the idempotence and root-mapping facts instantiated
at concrete inputs, with the hypothesis discharged by evaluation. -/
theorem claim_C8_witness :
    (goClean ("./".data) = ['.'] ∨ goClean ("./".data) = ['/']) ∧
    cleanse "./" = "" ∧ cleanse (cleanse "a//b/../c") = cleanse "a//b/../c" :=
  ⟨by decide, claim_C8_cleanse_idempotent.2.1 "./" (by decide),
    claim_C8_cleanse_idempotent.1 "a//b/../c"⟩

/-! ## Heap primitives -/

theorem findN_mem {st : Store} {id : Nat} {n : Node} (h : findN st id = some n) :
    (id, n) ∈ st := by
  induction st with
  | nil => simp [findN] at h
  | cons e rest ih =>
    obtain ⟨i, m⟩ := e
    simp only [findN] at h
    split at h
    · rename_i hi
      subst hi
      simp at h
      simp [h]
    · exact List.mem_cons_of_mem _ (ih h)

theorem findN_setN_same {st : Store} {id : Nat} {n₀ : Node} (n : Node)
    (h : findN st id = some n₀) : findN (setN st id n) id = some n := by
  induction st with
  | nil => simp [findN] at h
  | cons e rest ih =>
    obtain ⟨i, m⟩ := e
    simp only [findN, setN] at h ⊢
    split
    · rename_i hi
      simp [findN, hi]
    · rename_i hi
      rw [if_neg hi] at h
      simp only [findN]
      rw [if_neg hi]
      exact ih h

theorem findN_setN_other {st : Store} {id j : Nat} {n : Node} (hne : j ≠ id) :
    findN (setN st id n) j = findN st j := by
  induction st with
  | nil => simp [findN, setN]
  | cons e rest ih =>
    obtain ⟨i, m⟩ := e
    simp only [setN]
    split
    · rename_i hi
      subst hi
      simp only [findN]
      rw [if_neg (fun h => hne h.symm), if_neg (fun h => hne h.symm)]
    · simp only [findN]
      split
      · rfl
      · exact ih

theorem findN_isSome_setN {st : Store} {id j : Nat} {n : Node} :
    (findN (setN st id n) j).isSome = (findN st j).isSome := by
  induction st with
  | nil => simp [findN, setN]
  | cons e rest ih =>
    obtain ⟨i, m⟩ := e
    simp only [setN]
    split
    · rename_i hi
      subst hi
      simp only [findN]
      split <;> simp
    · simp only [findN]
      split
      · simp
      · exact ih

theorem setN_map_fst (st : Store) (id : Nat) (n : Node) :
    (setN st id n).map Prod.fst = st.map Prod.fst := by
  induction st with
  | nil => simp [setN]
  | cons e rest ih =>
    obtain ⟨i, m⟩ := e
    simp only [setN]
    split
    · rename_i hi
      subst hi
      simp
    · simp [ih]

theorem setN_subset {st : Store} {id : Nat} {n : Node} :
    ∀ e ∈ setN st id n, e = (id, n) ∨ e ∈ st := by
  induction st with
  | nil => simp [setN]
  | cons f rest ih =>
    obtain ⟨i, m⟩ := f
    simp only [setN]
    split
    · rename_i hi
      subst hi
      intro e he
      rcases List.mem_cons.mp he with h | h
      · exact Or.inl h
      · exact Or.inr (List.mem_cons_of_mem _ h)
    · intro e he
      rcases List.mem_cons.mp he with h | h
      · exact Or.inr (h ▸ List.mem_cons_self _ _)
      · rcases ih e h with h' | h'
        · exact Or.inl h'
        · exact Or.inr (List.mem_cons_of_mem _ h')

theorem findN_of_mem_nodup {st : Store} {id : Nat} {n : Node}
    (hnd : (st.map Prod.fst).Nodup) (h : (id, n) ∈ st) : findN st id = some n := by
  induction st with
  | nil => simp at h
  | cons e rest ih =>
    obtain ⟨i, m⟩ := e
    simp only [List.map_cons, List.nodup_cons] at hnd
    rcases List.mem_cons.mp h with h' | h'
    · cases h'
      simp [findN]
    · have hine : i ≠ id := by
        intro hi
        subst hi
        exact hnd.1 (List.mem_map.mpr ⟨(i, n), h', rfl⟩)
      simp only [findN]
      rw [if_neg hine]
      exact ih hnd.2 h'

theorem findN_append_left {st st₂ : Store} {id : Nat} {n : Node}
    (h : findN st id = some n) : findN (st ++ st₂) id = some n := by
  induction st with
  | nil => simp [findN] at h
  | cons e rest ih =>
    obtain ⟨i, m⟩ := e
    simp only [findN, List.cons_append] at h ⊢
    split at h
    · rename_i hi
      rw [if_pos hi]
      exact h
    · rename_i hi
      rw [if_neg hi]
      exact ih h

theorem findN_append_none {st st₂ : Store} {id : Nat}
    (h : findN st id = none) : findN (st ++ st₂) id = findN st₂ id := by
  induction st with
  | nil => simp
  | cons e rest ih =>
    obtain ⟨i, m⟩ := e
    simp only [findN, List.cons_append] at h ⊢
    split at h
    · simp at h
    · rename_i hi
      rw [if_neg hi]
      exact ih h

/-! ## Children mapping lemmas -/

theorem childGet_mem {cs : List (String × Nat)} {name : String} {id : Nat}
    (h : childGet cs name = some id) : (name, id) ∈ cs := by
  induction cs with
  | nil => simp [childGet] at h
  | cons e rest ih =>
    obtain ⟨s, i⟩ := e
    simp only [childGet] at h
    split at h
    · rename_i hs
      subst hs
      simp at h
      simp [h]
    · exact List.mem_cons_of_mem _ (ih h)

theorem childGet_childSet_same (cs : List (String × Nat)) (name : String) (id : Nat) :
    childGet (childSet cs name id) name = some id := by
  simp [childSet, childGet]

theorem childGet_filter_ne (cs : List (String × Nat)) (name nm : String)
    (h : nm ≠ name) :
    childGet (cs.filter (fun e => e.1 ≠ name)) nm = childGet cs nm := by
  induction cs with
  | nil => simp [childGet]
  | cons e rest ih =>
    obtain ⟨s, i⟩ := e
    rw [List.filter_cons]
    by_cases hs : s = name
    · subst hs
      rw [if_neg (by simp)]
      rw [ih]
      simp only [childGet]
      rw [if_neg (fun hh => h hh.symm)]
    · rw [if_pos (by simpa using hs)]
      simp only [childGet]
      split
      · rfl
      · exact ih

theorem childGet_childSet_other (cs : List (String × Nat)) (name nm : String)
    (id : Nat) (h : nm ≠ name) :
    childGet (childSet cs name id) nm = childGet cs nm := by
  simp only [childSet, childGet]
  rw [if_neg (fun hh => h hh.symm)]
  exact childGet_filter_ne cs name nm h

theorem childGet_childDel_same (cs : List (String × Nat)) (name : String) :
    childGet (childDel cs name) name = none := by
  induction cs with
  | nil => simp [childDel, childGet]
  | cons e rest ih =>
    obtain ⟨s, i⟩ := e
    simp only [childDel] at ih ⊢
    rw [List.filter_cons]
    by_cases hs : s = name
    · subst hs
      rw [if_neg (by simp)]
      exact ih
    · rw [if_pos (by simpa using hs)]
      simp only [childGet]
      rw [if_neg hs]
      exact ih

theorem childGet_childDel_other (cs : List (String × Nat)) (name nm : String)
    (h : nm ≠ name) :
    childGet (childDel cs name) nm = childGet cs nm := by
  simp only [childDel]
  exact childGet_filter_ne cs name nm h

theorem childSet_mem {cs : List (String × Nat)} {name : String} {id : Nat} :
    ∀ e ∈ childSet cs name id, e = (name, id) ∨ e ∈ cs := by
  intro e he
  simp only [childSet] at he
  rcases List.mem_cons.mp he with h | h
  · exact Or.inl h
  · exact Or.inr (List.mem_of_mem_filter h)

theorem childDel_subset {cs : List (String × Nat)} {name : String} :
    ∀ e ∈ childDel cs name, e ∈ cs := by
  intro e he
  exact List.mem_of_mem_filter he

/-! ## Resolution lemmas -/

theorem WF_lt_nextId {w : World} {id : Nat} {n : Node} (hwf : WF w)
    (h : findN w.store id = some n) : id < w.nextId :=
  hwf.1 (id, n) (findN_mem h)

theorem WF_children {w : World} {id : Nat} {n : Node} (hwf : WF w)
    (h : findN w.store id = some n) :
    ∀ c ∈ childIds n, id < c ∧ (findN w.store c).isSome :=
  hwf.2.2 (id, n) (findN_mem h)

theorem resolve_mono {st : Store} (hinc : ∀ e ∈ st, ∀ c ∈ childIds e.2, e.1 < c) :
    ∀ {segs : List String} {id rid : Nat},
      resolveFrom st id segs = .ok rid → id ≤ rid := by
  intro segs
  induction segs with
  | nil =>
    intro id rid h
    simp only [resolveFrom] at h
    cases h
    exact Nat.le_refl _
  | cons s rest ih =>
    intro id rid h
    cases hfind : findN st id with
    | none => simp [resolveFrom, hfind] at h
    | some n =>
      cases n with
      | file f => simp [resolveFrom, hfind] at h
      | dir d =>
        cases hcg : childGet d.children s with
        | none => simp [resolveFrom, hfind, hcg] at h
        | some cid =>
          simp only [resolveFrom, hfind, hcg] at h
          have h1 : id < cid := by
            apply hinc (id, .dir d) (findN_mem hfind)
            simp only [childIds]
            exact List.mem_map.mpr ⟨(s, cid), childGet_mem hcg, rfl⟩
          exact Nat.le_of_lt (Nat.lt_of_lt_of_le h1 (ih h))

theorem resolve_append (st : Store) (a : List String) :
    ∀ (id : Nat) (b : List String),
      resolveFrom st id (a ++ b) =
        match resolveFrom st id a with
        | .ok m => resolveFrom st m b
        | .error e => .error e := by
  induction a with
  | nil => intro id b; rfl
  | cons s rest ih =>
    intro id b
    cases hfind : findN st id with
    | none => simp [resolveFrom, hfind]
    | some n =>
      cases n with
      | file f => simp [resolveFrom, hfind]
      | dir d =>
        cases hcg : childGet d.children s with
        | none => simp [resolveFrom, hfind, hcg]
        | some cid =>
          simp only [List.cons_append, resolveFrom, hfind, hcg]
          exact ih cid b

theorem resolve_setN_high {w : World} (hwf : WF w) :
    ∀ {segs : List String} {r id : Nat},
      resolveFrom w.store r segs = .ok id →
      ∀ {j : Nat} (n : Node), id ≤ j →
        resolveFrom (setN w.store j n) r segs = .ok id := by
  intro segs
  induction segs with
  | nil =>
    intro r id h j n _
    simpa [resolveFrom] using h
  | cons s rest ih =>
    intro r id h j n hj
    cases hfind : findN w.store r with
    | none => simp [resolveFrom, hfind] at h
    | some m =>
      cases m with
      | file f => simp [resolveFrom, hfind] at h
      | dir d =>
        cases hcg : childGet d.children s with
        | none => simp [resolveFrom, hfind, hcg] at h
        | some cid =>
          simp only [resolveFrom, hfind, hcg] at h
          have hinc : ∀ e ∈ w.store, ∀ c ∈ childIds e.2, e.1 < c :=
            fun e he c hc => (hwf.2.2 e he c hc).1
          have hrc : r < cid := by
            apply hinc (r, .dir d) (findN_mem hfind)
            simp only [childIds]
            exact List.mem_map.mpr ⟨(s, cid), childGet_mem hcg, rfl⟩
          have hrj : r ≠ j :=
            Nat.ne_of_lt (Nat.lt_of_lt_of_le hrc (Nat.le_trans (resolve_mono hinc h) hj))
          simp only [resolveFrom, findN_setN_other hrj, hfind, hcg]
          exact ih h n hj

/-! ## Well-formedness preservation helpers -/

theorem WF_setN {w : World} (hwf : WF w) {id : Nat} {n₀ : Node} (n : Node)
    (hfind : findN w.store id = some n₀)
    (hch : ∀ c ∈ childIds n, id < c ∧ (findN w.store c).isSome) :
    WF { w with store := setN w.store id n } := by
  refine ⟨?_, ?_, ?_⟩
  · intro e he
    rcases setN_subset e he with h | h
    · rw [h]
      exact hwf.1 (id, n₀) (findN_mem hfind)
    · exact hwf.1 e h
  · show ((setN w.store id n).map Prod.fst).Nodup
    rw [setN_map_fst]
    exact hwf.2.1
  · intro e he c hc
    rcases setN_subset e he with h | h
    · rw [h] at hc ⊢
      refine ⟨(hch c hc).1, ?_⟩
      show (findN (setN w.store id n) c).isSome = true
      rw [findN_isSome_setN]
      exact (hch c hc).2
    · refine ⟨(hwf.2.2 e h c hc).1, ?_⟩
      show (findN (setN w.store id n) c).isSome = true
      rw [findN_isSome_setN]
      exact (hwf.2.2 e h c hc).2

theorem findN_cons (k : Nat) (n : Node) (st : Store) (j : Nat) :
    findN ((k, n) :: st) j = if k = j then some n else findN st j := rfl

theorem WF_alloc_leaf {w : World} (hwf : WF w) (n : Node) (hleaf : childIds n = []) :
    WF (alloc w n) := by
  refine ⟨?_, ?_, ?_⟩
  · intro e he
    simp only [alloc] at he
    rcases List.mem_cons.mp he with h | h
    · rw [h]
      exact Nat.lt_succ_self _
    · exact Nat.lt_succ_of_lt (hwf.1 e h)
  · show (((w.nextId, n) :: w.store).map Prod.fst).Nodup
    rw [List.map_cons]
    refine List.nodup_cons.mpr ⟨?_, hwf.2.1⟩
    intro hmem
    obtain ⟨e, he, heq⟩ := List.mem_map.mp hmem
    exact Nat.lt_irrefl _ (heq ▸ hwf.1 e he)
  · intro e he c hc
    simp only [alloc] at he
    rcases List.mem_cons.mp he with h | h
    · rw [h] at hc
      rw [hleaf] at hc
      simp at hc
    · refine ⟨(hwf.2.2 e h c hc).1, ?_⟩
      show (findN ((w.nextId, n) :: w.store) c).isSome = true
      rw [findN_cons]
      split
      · simp
      · exact (hwf.2.2 e h c hc).2

/-! ## Insertion lemmas -/

theorem insert_at_resolved {f : FileNode} :
    ∀ {segs : List String} {w : World} {id cid : Nat},
      segs ≠ [] → resolveFrom w.store id segs = .ok cid →
      insertFileAt w id f segs =
        match findN w.store cid with
        | some (.file old) =>
          .ok { w with store := setN w.store cid (.file { f with sys := old.sys }) }
        | some (.dir _) => .error .invalidArgument
        | none => .error .notFound := by
  intro segs
  induction segs with
  | nil => intro w id cid hne _; exact absurd rfl hne
  | cons name rest ih =>
    intro w id cid _ hres
    cases hfind : findN w.store id with
    | none => simp [resolveFrom, hfind] at hres
    | some m =>
      cases m with
      | file g => simp [resolveFrom, hfind] at hres
      | dir d =>
        cases hcg : childGet d.children name with
        | none => simp [resolveFrom, hfind, hcg] at hres
        | some cid₂ =>
          simp only [resolveFrom, hfind, hcg] at hres
          cases rest with
          | nil =>
            have hc : cid₂ = cid := by simpa [resolveFrom] using hres
            subst hc
            simp only [insertFileAt, hfind, hcg]
            cases hf2 : findN w.store cid₂ with
            | none => rfl
            | some nn => cases nn <;> rfl
          | cons seg rest₂ =>
            simp only [insertFileAt, hfind, hcg]
            exact ih (by simp) hres

theorem WF_create_step {w : World} (hwf : WF w) {id : Nat} {d : DirNode}
    (hfind : findN w.store id = some (.dir d)) (name : String) (nn : Node)
    (hleaf : childIds nn = []) :
    WF (linkChild w id d name nn) ∧
    findN (linkChild w id d name nn).store id =
      some (.dir { d with children := childSet d.children name w.nextId }) ∧
    findN (linkChild w id d name nn).store w.nextId = some nn ∧
    (linkChild w id d name nn).nextId = w.nextId + 1 ∧
    (linkChild w id d name nn).runLog = w.runLog ∧
    (linkChild w id d name nn).time = w.time := by
  have hidlt : id < w.nextId := WF_lt_nextId hwf hfind
  have hidne : w.nextId ≠ id := fun h => Nat.lt_irrefl id (h ▸ hidlt)
  have hf₁ : findN (alloc w nn).store id = some (.dir d) := by
    show findN ((w.nextId, nn) :: w.store) id = _
    rw [findN_cons, if_neg hidne]
    exact hfind
  have hfnew : findN (alloc w nn).store w.nextId = some nn := by
    show findN ((w.nextId, nn) :: w.store) w.nextId = _
    rw [findN_cons, if_pos rfl]
  have hwf₁ : WF (alloc w nn) := WF_alloc_leaf hwf nn hleaf
  have hch : ∀ c ∈ childIds (.dir { d with children := childSet d.children name w.nextId }),
      id < c ∧ (findN (alloc w nn).store c).isSome := by
    intro c hc
    simp only [childIds] at hc
    obtain ⟨e, he, heq⟩ := List.mem_map.mp hc
    rcases childSet_mem e he with h | h
    · rw [h] at heq
      rw [← heq]
      refine ⟨hidlt, ?_⟩
      rw [hfnew]
      rfl
    · have := hwf.2.2 (id, .dir d) (findN_mem hfind) c
        (by simp only [childIds]; exact List.mem_map.mpr ⟨e, h, heq⟩)
      refine ⟨this.1, ?_⟩
      show (findN ((w.nextId, nn) :: w.store) c).isSome = true
      rw [findN_cons]
      split
      · rfl
      · exact this.2
  refine ⟨WF_setN hwf₁ _ hf₁ hch, findN_setN_same _ hf₁, ?_, rfl, rfl, rfl⟩
  show findN (setN (alloc w nn).store id _) w.nextId = some nn
  rw [findN_setN_other hidne]
  exact hfnew

theorem insert_WF {f : FileNode} :
    ∀ {segs : List String} {w : World} {id : Nat} {w' : World},
      WF w → insertFileAt w id f segs = .ok w' →
      WF w' ∧ w.nextId ≤ w'.nextId ∧ w'.runLog = w.runLog ∧ w'.time = w.time := by
  intro segs
  induction segs with
  | nil => intro w id w' _ h; simp [insertFileAt] at h
  | cons name rest ih =>
    intro w id w' hwf h
    cases hfind : findN w.store id with
    | none => cases rest <;> simp [insertFileAt, hfind] at h
    | some m =>
      cases m with
      | file g => cases rest <;> simp [insertFileAt, hfind] at h
      | dir d =>
        cases rest with
        | nil =>
          cases hcg : childGet d.children name with
          | some cid =>
            cases hf2 : findN w.store cid with
            | none => simp [insertFileAt, hfind, hcg, hf2] at h
            | some nn =>
              cases nn with
              | dir d2 => simp [insertFileAt, hfind, hcg, hf2] at h
              | file old =>
                simp only [insertFileAt, hfind, hcg, hf2, Except.ok.injEq] at h
                subst h
                exact ⟨WF_setN hwf _ hf2 (by simp [childIds]), Nat.le_refl _, rfl, rfl⟩
          | none =>
            simp only [insertFileAt, hfind, hcg, Except.ok.injEq] at h
            subst h
            exact ⟨(WF_create_step hwf hfind name (.file f) rfl).1,
              Nat.le_succ _, rfl, rfl⟩
        | cons seg rest₂ =>
          cases hcg : childGet d.children name with
          | some cid =>
            simp only [insertFileAt, hfind, hcg] at h
            exact ih hwf h
          | none =>
            simp only [insertFileAt, hfind, hcg] at h
            have hwf₂ := (WF_create_step hwf hfind name
              (.dir { mode := f.mode, modTime := w.time, sys := none, children := [] }) rfl).1
            obtain ⟨hWF, hle, hlog, htime⟩ := ih hwf₂ h
            exact ⟨hWF, Nat.le_trans (Nat.le_succ _) hle, hlog, htime⟩

theorem linkChild_frame {w : World} (hwf : WF w) {id : Nat} {d : DirNode}
    (hfind : findN w.store id = some (.dir d)) (name : String) (nn : Node) :
    ∀ j, j < id → findN (linkChild w id d name nn).store j = findN w.store j := by
  intro j hj
  have hidlt : id < w.nextId := WF_lt_nextId hwf hfind
  have hjne : j ≠ id := Nat.ne_of_lt hj
  show findN (setN ((w.nextId, nn) :: w.store) id _) j = _
  rw [findN_setN_other hjne, findN_cons,
    if_neg (fun h => Nat.lt_irrefl j (Nat.lt_of_lt_of_le (Nat.lt_trans hj hidlt) (Nat.le_of_eq h)))]

theorem insert_frame {f : FileNode} :
    ∀ {segs : List String} {w : World} {id : Nat} {w' : World},
      WF w → insertFileAt w id f segs = .ok w' →
      ∀ j, j < id → findN w'.store j = findN w.store j := by
  intro segs
  induction segs with
  | nil => intro w id w' _ h; simp [insertFileAt] at h
  | cons name rest ih =>
    intro w id w' hwf h j hj
    cases hfind : findN w.store id with
    | none => cases rest <;> simp [insertFileAt, hfind] at h
    | some m =>
      cases m with
      | file g => cases rest <;> simp [insertFileAt, hfind] at h
      | dir d =>
        cases rest with
        | nil =>
          cases hcg : childGet d.children name with
          | some cid =>
            cases hf2 : findN w.store cid with
            | none => simp [insertFileAt, hfind, hcg, hf2] at h
            | some nn =>
              cases nn with
              | dir d2 => simp [insertFileAt, hfind, hcg, hf2] at h
              | file old =>
                simp only [insertFileAt, hfind, hcg, hf2, Except.ok.injEq] at h
                subst h
                have hidcid : id < cid := by
                  refine (WF_children hwf hfind cid ?_).1
                  simp only [childIds]
                  exact List.mem_map.mpr ⟨(name, cid), childGet_mem hcg, rfl⟩
                show findN (setN w.store cid _) j = _
                exact findN_setN_other (Nat.ne_of_lt (Nat.lt_trans hj hidcid))
          | none =>
            simp only [insertFileAt, hfind, hcg, Except.ok.injEq] at h
            subst h
            exact linkChild_frame hwf hfind name (.file f) j hj
        | cons seg rest₂ =>
          cases hcg : childGet d.children name with
          | some cid =>
            simp only [insertFileAt, hfind, hcg] at h
            have hidcid : id < cid := by
              refine (WF_children hwf hfind cid ?_).1
              simp only [childIds]
              exact List.mem_map.mpr ⟨(name, cid), childGet_mem hcg, rfl⟩
            exact ih hwf h j (Nat.lt_trans hj hidcid)
          | none =>
            simp only [insertFileAt, hfind, hcg] at h
            have hstep := WF_create_step hwf hfind name
              (.dir { mode := f.mode, modTime := w.time, sys := none, children := [] }) rfl
            have hjlt : j < w.nextId :=
              Nat.lt_trans hj (WF_lt_nextId hwf hfind)
            have h1 := ih hstep.1 h j hjlt
            rw [h1]
            exact linkChild_frame hwf hfind name _ j hj

theorem insert_ok {f : FileNode} :
    ∀ {segs : List String} {w : World} {id : Nat} {w' : World},
      WF w → insertFileAt w id f segs = .ok w' →
      ∃ cid sy, resolveFrom w'.store id segs = .ok cid ∧
        findN w'.store cid = some (.file { f with sys := sy }) ∧
        (∀ e ∈ w'.store, (∃ d, e.2 = .dir d) ∨ e ∈ w.store ∨ e.1 = cid) := by
  intro segs
  induction segs with
  | nil => intro w id w' _ h; simp [insertFileAt] at h
  | cons name rest ih =>
    intro w id w' hwf h
    cases hfind : findN w.store id with
    | none => cases rest <;> simp [insertFileAt, hfind] at h
    | some m =>
      cases m with
      | file g => cases rest <;> simp [insertFileAt, hfind] at h
      | dir d =>
        cases rest with
        | nil =>
          cases hcg : childGet d.children name with
          | some cid =>
            cases hf2 : findN w.store cid with
            | none => simp [insertFileAt, hfind, hcg, hf2] at h
            | some nn =>
              cases nn with
              | dir d2 => simp [insertFileAt, hfind, hcg, hf2] at h
              | file old =>
                simp only [insertFileAt, hfind, hcg, hf2, Except.ok.injEq] at h
                subst h
                have hidcid : id < cid := by
                  refine (WF_children hwf hfind cid ?_).1
                  simp only [childIds]
                  exact List.mem_map.mpr ⟨(name, cid), childGet_mem hcg, rfl⟩
                refine ⟨cid, old.sys, ?_, ?_, ?_⟩
                · show resolveFrom (setN w.store cid _) id [name] = .ok cid
                  simp only [resolveFrom,
                    findN_setN_other (Nat.ne_of_lt hidcid), hfind, hcg]
                · exact findN_setN_same _ hf2
                · intro e he
                  rcases setN_subset e he with h | h
                  · exact Or.inr (Or.inr (by rw [h]))
                  · exact Or.inr (Or.inl h)
          | none =>
            simp only [insertFileAt, hfind, hcg, Except.ok.injEq] at h
            subst h
            have hstep := WF_create_step hwf hfind name (.file f) rfl
            refine ⟨w.nextId, f.sys, ?_, ?_, ?_⟩
            · simp only [resolveFrom, hstep.2.1, childGet_childSet_same]
            · have : ({ f with sys := f.sys } : FileNode) = f := rfl
              rw [this]
              exact hstep.2.2.1
            · intro e he
              show (∃ d', e.2 = .dir d') ∨ e ∈ w.store ∨ e.1 = w.nextId
              have he' : e ∈ setN ((w.nextId, .file f) :: w.store) id
                  (.dir { d with children := childSet d.children name w.nextId }) := he
              rcases setN_subset e he' with h | h
              · exact Or.inl ⟨_, by rw [h]⟩
              · rcases List.mem_cons.mp h with h' | h'
                · exact Or.inr (Or.inr (by rw [h']))
                · exact Or.inr (Or.inl h')
        | cons seg rest₂ =>
          cases hcg : childGet d.children name with
          | some cid =>
            simp only [insertFileAt, hfind, hcg] at h
            obtain ⟨cid₂, sy, hres, hfile, hent⟩ := ih hwf h
            have hidcid : id < cid := by
              refine (WF_children hwf hfind cid ?_).1
              simp only [childIds]
              exact List.mem_map.mpr ⟨(name, cid), childGet_mem hcg, rfl⟩
            refine ⟨cid₂, sy, ?_, hfile, hent⟩
            have hfind' : findN w'.store id = some (.dir d) := by
              rw [insert_frame hwf h id hidcid]
              exact hfind
            simp only [resolveFrom, hfind', hcg]
            exact hres
          | none =>
            simp only [insertFileAt, hfind, hcg] at h
            have hstep := WF_create_step hwf hfind name
              (.dir { mode := f.mode, modTime := w.time, sys := none, children := [] }) rfl
            obtain ⟨cid₂, sy, hres, hfile, hent⟩ := ih hstep.1 h
            refine ⟨cid₂, sy, ?_, hfile, ?_⟩
            · have hfind' : findN w'.store id =
                  some (.dir { d with children := childSet d.children name w.nextId }) := by
                have hlt : id < w.nextId := WF_lt_nextId hwf hfind
                rw [insert_frame hstep.1 h id hlt]
                exact hstep.2.1
              simp only [resolveFrom, hfind', childGet_childSet_same]
              exact hres
            · intro e he
              rcases hent e he with h' | h' | h'
              · exact Or.inl h'
              · have he₂ : e ∈ setN ((w.nextId,
                    .dir { mode := f.mode, modTime := w.time, sys := none, children := [] })
                    :: w.store) id
                    (.dir { d with children := childSet d.children name w.nextId }) := h'
                rcases setN_subset e he₂ with h'' | h''
                · exact Or.inl ⟨_, by rw [h'']⟩
                · rcases List.mem_cons.mp h'' with h₃ | h₃
                  · exact Or.inl ⟨_, by rw [h₃]⟩
                  · exact Or.inr (Or.inl h₃)
              · exact Or.inr (Or.inr h')

/-! ## Directory-creation lemmas -/

theorem mkdir_WF {m : Nat} :
    ∀ {segs : List String} {w : World} {id : Nat} {w' : World},
      WF w → mkdirAllAt w id m segs = .ok w' →
      WF w' ∧ w.nextId ≤ w'.nextId ∧ w'.runLog = w.runLog ∧ w'.time = w.time := by
  intro segs
  induction segs with
  | nil =>
    intro w id w' hwf h
    cases hfind : findN w.store id with
    | none => simp [mkdirAllAt, hfind] at h
    | some n =>
      cases n with
      | file g => simp [mkdirAllAt, hfind] at h
      | dir d =>
        simp only [mkdirAllAt, hfind, Except.ok.injEq] at h
        subst h
        exact ⟨hwf, Nat.le_refl _, rfl, rfl⟩
  | cons s rest ih =>
    intro w id w' hwf h
    cases hfind : findN w.store id with
    | none => simp [mkdirAllAt, hfind] at h
    | some n =>
      cases n with
      | file g => simp [mkdirAllAt, hfind] at h
      | dir d =>
        cases hcg : childGet d.children s with
        | some cid =>
          simp only [mkdirAllAt, hfind, hcg] at h
          exact ih hwf h
        | none =>
          simp only [mkdirAllAt, hfind, hcg] at h
          have hwf₂ := (WF_create_step hwf hfind s
            (.dir { mode := m, modTime := w.time, sys := none, children := [] }) rfl).1
          obtain ⟨hWF, hle, hlog, htime⟩ := ih hwf₂ h
          exact ⟨hWF, Nat.le_trans (Nat.le_succ _) hle, hlog, htime⟩

theorem mkdir_frame {m : Nat} :
    ∀ {segs : List String} {w : World} {id : Nat} {w' : World},
      WF w → mkdirAllAt w id m segs = .ok w' →
      ∀ j, j < id → findN w'.store j = findN w.store j := by
  intro segs
  induction segs with
  | nil =>
    intro w id w' hwf h j _
    cases hfind : findN w.store id with
    | none => simp [mkdirAllAt, hfind] at h
    | some n =>
      cases n with
      | file g => simp [mkdirAllAt, hfind] at h
      | dir d =>
        simp only [mkdirAllAt, hfind, Except.ok.injEq] at h
        subst h
        rfl
  | cons s rest ih =>
    intro w id w' hwf h j hj
    cases hfind : findN w.store id with
    | none => simp [mkdirAllAt, hfind] at h
    | some n =>
      cases n with
      | file g => simp [mkdirAllAt, hfind] at h
      | dir d =>
        cases hcg : childGet d.children s with
        | some cid =>
          simp only [mkdirAllAt, hfind, hcg] at h
          have hidcid : id < cid := by
            refine (WF_children hwf hfind cid ?_).1
            simp only [childIds]
            exact List.mem_map.mpr ⟨(s, cid), childGet_mem hcg, rfl⟩
          exact ih hwf h j (Nat.lt_trans hj hidcid)
        | none =>
          simp only [mkdirAllAt, hfind, hcg] at h
          have hstep := WF_create_step hwf hfind s
            (.dir { mode := m, modTime := w.time, sys := none, children := [] }) rfl
          have hjlt : j < w.nextId := Nat.lt_trans hj (WF_lt_nextId hwf hfind)
          have h1 := ih hstep.1 h j hjlt
          rw [h1]
          exact linkChild_frame hwf hfind s _ j hj

theorem mkdir_ok {m : Nat} :
    ∀ {segs : List String} {w : World} {id : Nat} {w' : World},
      WF w → mkdirAllAt w id m segs = .ok w' →
      ∃ did d, resolveFrom w'.store id segs = .ok did ∧
        findN w'.store did = some (.dir d) := by
  intro segs
  induction segs with
  | nil =>
    intro w id w' hwf h
    cases hfind : findN w.store id with
    | none => simp [mkdirAllAt, hfind] at h
    | some n =>
      cases n with
      | file g => simp [mkdirAllAt, hfind] at h
      | dir d =>
        simp only [mkdirAllAt, hfind, Except.ok.injEq] at h
        subst h
        exact ⟨id, d, rfl, hfind⟩
  | cons s rest ih =>
    intro w id w' hwf h
    cases hfind : findN w.store id with
    | none => simp [mkdirAllAt, hfind] at h
    | some n =>
      cases n with
      | file g => simp [mkdirAllAt, hfind] at h
      | dir d =>
        cases hcg : childGet d.children s with
        | some cid =>
          simp only [mkdirAllAt, hfind, hcg] at h
          obtain ⟨did, d₂, hres, hfile⟩ := ih hwf h
          have hidcid : id < cid := by
            refine (WF_children hwf hfind cid ?_).1
            simp only [childIds]
            exact List.mem_map.mpr ⟨(s, cid), childGet_mem hcg, rfl⟩
          have hfind' : findN w'.store id = some (.dir d) := by
            rw [mkdir_frame hwf h id hidcid]
            exact hfind
          refine ⟨did, d₂, ?_, hfile⟩
          simp only [resolveFrom, hfind', hcg]
          exact hres
        | none =>
          simp only [mkdirAllAt, hfind, hcg] at h
          have hstep := WF_create_step hwf hfind s
            (.dir { mode := m, modTime := w.time, sys := none, children := [] }) rfl
          obtain ⟨did, d₂, hres, hfile⟩ := ih hstep.1 h
          refine ⟨did, d₂, ?_, hfile⟩
          have hlt : id < w.nextId := WF_lt_nextId hwf hfind
          have hfind' : findN w'.store id =
              some (.dir { d with children := childSet d.children s w.nextId }) := by
            rw [mkdir_frame hstep.1 h id hlt]
            exact hstep.2.1
          simp only [resolveFrom, hfind', childGet_childSet_same]
          exact hres

/-! ## Mode-bit lemma -/

theorem hasDirBit_lor (m : Nat) : hasDirBit (m ||| ModeDirBit) = true := by
  have h2 : ModeDirBit.testBit 31 = true := by
    show ((2 : Nat) ^ 31).testBit 31 = true
    exact Nat.testBit_two_pow_self
  show (m ||| ModeDirBit).testBit 31 = true
  rw [Nat.testBit_lor, h2]
  exact Bool.or_true _

/-! ## Claims about writing and reading -/

/-- Claim C1: for every path and every byte sequence, a successful
`writeFile(path, bytes, mode)` (with a valid file mode) followed by
`readFile(path)` succeeds and returns exactly the written bytes.  In this
value model the returned byte list is the node's content value, so returning
a copy and returning the content are indistinguishable; the round-trip
equality is the observable content of the claim. -/
theorem claim_C1_write_read_roundtrip (w : World) (r : Nat) (p : String)
    (bytes : Bytes) (m : Nat) (w' : World) (hwf : WF w)
    (h : writeFile w r p bytes m = .ok w') :
    readFile w' r p = .ok (bytes, w') := by
  cases hm : hasDirBit m with
  | true => simp [writeFile, hm] at h
  | false =>
    simp only [writeFile, hm, Bool.false_eq_true, if_false] at h
    obtain ⟨cid, sy, hres, hfile, _⟩ := insert_ok hwf h
    simp only [readFile, hres, forceAt, hfile]

/-- Claim C1, witness: the round trip evaluated on a concrete world. -/
theorem claim_C1_witness :
    WF newWorld ∧ writeFile newWorld 0 "docs/a.txt" [1, 2, 3] 0o644 = .ok exW1 ∧
    readFile exW1 0 "docs/a.txt" = .ok ([1, 2, 3], exW1) :=
  ⟨by decide, by decide,
    claim_C1_write_read_roundtrip newWorld 0 "docs/a.txt" [1, 2, 3] 0o644 exW1
      (by decide) (by decide)⟩

/-- Claim C2: for every file, obtaining a handle via `open(path)` and then
overwriting the file via `writeFile(path, newBytes, mode)` before the first
read leaves the handle referencing the live node, so reading the handle
returns the new content, not the content present at open time. -/
theorem claim_C2_handle_sees_overwrite (w : World) (r : Nat) (p : String)
    (bytes : Bytes) (m : Nat) (h₀ : Handle) (w' : World)
    (hopen : openPath w r p = .ok h₀)
    (hwrite : writeFile w r p bytes m = .ok w') :
    ∃ h₁, readAllHandle w' h₀ = .ok (bytes, h₁, w') := by
  cases hm : hasDirBit m with
  | true => simp [writeFile, hm] at hwrite
  | false =>
    simp only [writeFile, hm, Bool.false_eq_true, if_false] at hwrite
    cases hres : resolveFrom w.store r (parts p) with
    | error e => simp [openPath, hres] at hopen
    | ok id =>
      simp only [openPath, hres, Except.ok.injEq] at hopen
      subst hopen
      cases hp : parts p with
      | nil =>
        rw [hp] at hwrite
        simp [insertFileAt] at hwrite
      | cons a rest =>
        rw [hp] at hwrite hres
        rw [insert_at_resolved (by simp) hres] at hwrite
        cases hfind : findN w.store id with
        | none => rw [hfind] at hwrite; exact absurd hwrite (by simp)
        | some n =>
          cases n with
          | dir d => rw [hfind] at hwrite; exact absurd hwrite (by simp)
          | file old =>
            rw [hfind] at hwrite
            simp only [Except.ok.injEq] at hwrite
            subst hwrite
            refine ⟨{ nodeId := id, offset := Nat.max 0 bytes.length }, ?_⟩
            simp only [readAllHandle, forceAt, findN_setN_same _ hfind]
            simp [List.drop_zero]

/-- Claim C2, witness: a handle opened before an overwrite reads the new
bytes on a concrete world. -/
theorem claim_C2_witness :
    openPath exW1 0 "docs/a.txt" = .ok exH1 ∧
    writeFile exW1 0 "docs/a.txt" [7, 7] 0o644 = .ok exW2 ∧
    ∃ h₁, readAllHandle exW2 exH1 = .ok ([7, 7], h₁, exW2) :=
  ⟨by decide, by decide,
    claim_C2_handle_sees_overwrite exW1 0 "docs/a.txt" [7, 7] 0o644 exH1 exW2
      (by decide) (by decide)⟩

/-- Claim C6: `writeFile` and `writeLazyFile` fail with InvalidArgument when
the supplied mode carries the directory flag, and also when the node already
existing at the path is a Directory (the root included). -/
theorem claim_C6_write_invalid_argument (w : World) (r : Nat) (p : String)
    (bytes : Bytes) (ldr : Loader) (m : Nat) :
    (hasDirBit m = true →
      writeFile w r p bytes m = .error .invalidArgument ∧
      writeLazyFile w r p ldr m = .error .invalidArgument) ∧
    (∀ id d, resolveFrom w.store r (parts p) = .ok id →
      findN w.store id = some (.dir d) →
      writeFile w r p bytes m = .error .invalidArgument ∧
      writeLazyFile w r p ldr m = .error .invalidArgument) := by
  constructor
  · intro hm
    constructor
    · simp [writeFile, hm]
    · simp [writeLazyFile, hm]
  · intro id d hres hfind
    cases hm : hasDirBit m with
    | true =>
      constructor
      · simp [writeFile, hm]
      · simp [writeLazyFile, hm]
    | false =>
      have hcommon : ∀ f : FileNode, insertFileAt w r f (parts p) = .error .invalidArgument := by
        intro f
        cases hp : parts p with
        | nil =>
          simp [insertFileAt]
        | cons a rest =>
          rw [hp] at hres
          rw [insert_at_resolved (by simp) hres, hfind]
      constructor
      · simp only [writeFile, hm, Bool.false_eq_true, if_false]
        exact hcommon _
      · simp only [writeLazyFile, hm, Bool.false_eq_true, if_false]
        exact hcommon _

/-- Claim C6, witness: both invalid cases evaluated on a concrete world. -/
theorem claim_C6_witness :
    (hasDirBit (0o644 + 2 ^ 31) = true ∧
      writeFile exW1 0 "x.txt" [1] (0o644 + 2 ^ 31) = .error .invalidArgument) ∧
    (resolveFrom exW1.store 0 (parts "docs") = .ok 1 ∧
      writeFile exW1 0 "docs" [1] 0o644 = .error .invalidArgument) := by
  refine ⟨⟨by decide, ?_⟩, by decide, ?_⟩
  · exact ((claim_C6_write_invalid_argument exW1 0 "x.txt" [1]
      { lid := 0, result := [] } (0o644 + 2 ^ 31)).1 (by decide)).1
  · exact ((claim_C6_write_invalid_argument exW1 0 "docs" [1]
      { lid := 0, result := [] } 0o644).2 1
      ⟨0o644, 0, none, [("a.txt", 2)]⟩ (by decide) (by decide)).1

/-- Claim C9: for every directory (the root included), `stat` reports the
fixed constant 256 as size, whatever its children are; for every file with
materialized content, `stat` reports the content length as size. -/
theorem claim_C9_stat_sizes (w : World) (r : Nat) (p : String) :
    (∀ id d, resolveFrom w.store r (parts p) = .ok id →
      findN w.store id = some (.dir d) →
      stat w r p = .ok ⟨lastName p, 256, d.mode ||| ModeDirBit, d.modTime, d.sys, true⟩) ∧
    (∀ id f c, resolveFrom w.store r (parts p) = .ok id →
      findN w.store id = some (.file f) → f.data = .resolved c →
      stat w r p = .ok ⟨lastName p, c.length, f.mode, f.modTime, f.sys, false⟩) := by
  constructor
  · intro id d hres hfind
    simp only [stat, hres, statNode, hfind]
  · intro id f c hres hfind hdata
    simp only [stat, hres, statNode, hfind, dataLen, hdata]

/-- Claim C9, witness: directory and file sizes evaluated concretely. -/
theorem claim_C9_witness :
    (resolveFrom exW3.store 0 (parts "sub") = .ok 3 ∧
      (stat exW3 0 "sub").map (fun i => (i.size, i.isDir)) = .ok (256, true)) ∧
    (resolveFrom exW1.store 0 (parts "docs/a.txt") = .ok 2 ∧
      (stat exW1 0 "docs/a.txt").map (fun i => (i.size, i.isDir)) = .ok (3, false)) := by
  refine ⟨⟨by decide, ?_⟩, by decide, ?_⟩
  · rw [(claim_C9_stat_sizes exW3 0 "sub").1 3
      { mode := 0o700, modTime := 0, sys := none, children := [("dir", 4)] }
      (by decide) (by decide)]
    rfl
  · rw [(claim_C9_stat_sizes exW1 0 "docs/a.txt").2 2
      { mode := 0o644, modTime := 0, sys := none, data := .resolved [1, 2, 3] }
      [1, 2, 3] (by decide) (by decide) (by decide)]
    rfl

/-- Claim C10: a Directory always reports a mode with the directory flag.
`mkdirAll(path, m)` — even when `m` lacks the flag — yields a path whose
`stat` mode includes the flag; `setMode(dirPath, m)` with plain permission
bits results in `stat` reporting `m` with the directory flag added, so
`setMode` can never strip the flag from a directory. -/
theorem claim_C10_dir_flag (w : World) (r : Nat) (p : String) (m : Nat)
    (hwf : WF w) :
    (∀ w', mkdirAll w r p m = .ok w' →
      ∃ info, stat w' r p = .ok info ∧ info.isDir = true ∧
        hasDirBit info.mode = true) ∧
    (∀ id d w', resolveFrom w.store r (parts p) = .ok id →
      findN w.store id = some (.dir d) → setMode w r p m = .ok w' →
      stat w' r p = .ok ⟨lastName p, 256, m ||| ModeDirBit, d.modTime, d.sys, true⟩ ∧
      hasDirBit (m ||| ModeDirBit) = true) := by
  constructor
  · intro w' h
    obtain ⟨did, d₂, hres, hfind⟩ := mkdir_ok hwf h
    refine ⟨⟨lastName p, 256, d₂.mode ||| ModeDirBit, d₂.modTime, d₂.sys, true⟩,
      ?_, rfl, hasDirBit_lor _⟩
    simp only [stat, hres, statNode, hfind]
  · intro id d w' hres hfind h
    simp only [setMode, hres, hfind, Except.ok.injEq] at h
    subst h
    refine ⟨?_, hasDirBit_lor m⟩
    have hres' := resolve_setN_high hwf hres (.dir { d with mode := m }) (Nat.le_refl id)
    simp only [stat, hres', statNode, findN_setN_same _ hfind]

/-- Claim C10, witness: directory creation with a flag-less mode and a
`setMode` with plain permission bits, both reporting the directory flag. -/
theorem claim_C10_witness :
    WF exW1 ∧ mkdirAll exW1 0 "sub/dir" 0o700 = .ok exW3 ∧
    (∃ info, stat exW3 0 "sub/dir" = .ok info ∧ info.isDir = true ∧
      hasDirBit info.mode = true) ∧
    setMode exW3 0 "sub" 0o777 = .ok exW4 ∧
    (stat exW4 0 "sub").map (fun i => (i.mode, i.isDir)) =
      .ok (0o777 ||| ModeDirBit, true) := by
  have hwf : WF exW1 := by decide
  have h1 : mkdirAll exW1 0 "sub/dir" 0o700 = .ok exW3 := by decide
  have h2 := (claim_C10_dir_flag exW1 0 "sub/dir" 0o700 hwf).1 exW3 h1
  have h3 : setMode exW3 0 "sub" 0o777 = .ok exW4 := by decide
  have h4 := (claim_C10_dir_flag exW3 0 "sub" 0o777 (by decide)).2 3
    ⟨0o700, 0, none, [("dir", 4)]⟩ exW4 (by decide) (by decide) h3
  refine ⟨hwf, h1, h2, h3, ?_⟩
  rw [h4.1]
  rfl

/-! ## Deletion lemmas -/

theorem removeAt_follows :
    ∀ (ps : List String) (w : World) (r : Nat) (nm : String),
      removeAt w r (ps ++ [nm]) =
        match resolveFrom w.store r ps with
        | .ok pid => removeAt w pid [nm]
        | .error e => .error e := by
  intro ps
  induction ps with
  | nil => intro w r nm; rfl
  | cons a ps' ih =>
    intro w r nm
    obtain ⟨seg, rest₂, hsr⟩ : ∃ seg rest₂, ps' ++ [nm] = seg :: rest₂ := by
      cases ps' with
      | nil => exact ⟨nm, [], rfl⟩
      | cons b bs => exact ⟨b, bs ++ [nm], rfl⟩
    cases hfind : findN w.store r with
    | none => rw [List.cons_append, hsr]; simp [removeAt, resolveFrom, hfind]
    | some n =>
      cases n with
      | file g => rw [List.cons_append, hsr]; simp [removeAt, resolveFrom, hfind]
      | dir d =>
        cases hcg : childGet d.children a with
        | none => rw [List.cons_append, hsr]; simp [removeAt, resolveFrom, hfind, hcg]
        | some cid =>
          rw [List.cons_append, hsr]
          simp only [removeAt, resolveFrom, hfind, hcg]
          rw [← hsr]
          exact ih w cid nm

theorem removeAllAt_follows :
    ∀ (ps : List String) (w : World) (r : Nat) (nm : String),
      removeAllAt w r (ps ++ [nm]) =
        match resolveFrom w.store r ps with
        | .ok pid => removeAllAt w pid [nm]
        | .error e => .error e := by
  intro ps
  induction ps with
  | nil => intro w r nm; rfl
  | cons a ps' ih =>
    intro w r nm
    obtain ⟨seg, rest₂, hsr⟩ : ∃ seg rest₂, ps' ++ [nm] = seg :: rest₂ := by
      cases ps' with
      | nil => exact ⟨nm, [], rfl⟩
      | cons b bs => exact ⟨b, bs ++ [nm], rfl⟩
    cases hfind : findN w.store r with
    | none => rw [List.cons_append, hsr]; simp [removeAllAt, resolveFrom, hfind]
    | some n =>
      cases n with
      | file g => rw [List.cons_append, hsr]; simp [removeAllAt, resolveFrom, hfind]
      | dir d =>
        cases hcg : childGet d.children a with
        | none => rw [List.cons_append, hsr]; simp [removeAllAt, resolveFrom, hfind, hcg]
        | some cid =>
          rw [List.cons_append, hsr]
          simp only [removeAllAt, resolveFrom, hfind, hcg]
          rw [← hsr]
          exact ih w cid nm

/-- Claim C4: for every non-empty directory, `remove` fails with NotEmpty —
and, returning an error, leaves the tree unchanged — while `removeAll` on
the same path succeeds; afterwards `stat` on that path and on every path
extending it (in particular every former descendant) fails with NotFound. -/
theorem claim_C4_remove_nonempty (w : World) (r : Nat) (p : String)
    (ps : List String) (nm : String) (id : Nat) (d : DirNode) (hwf : WF w)
    (hp : parts p = ps ++ [nm])
    (hres : resolveFrom w.store r (parts p) = .ok id)
    (hfind : findN w.store id = some (.dir d))
    (hne : d.children ≠ []) :
    remove w r p = .error .notEmpty ∧
    ∃ w', removeAll w r p = .ok w' ∧
      ∀ q, (∃ rest, parts q = parts p ++ rest) → stat w' r q = .error .notFound := by
  rw [hp] at hres
  rw [resolve_append] at hres
  cases hpar : resolveFrom w.store r ps with
  | error e => rw [hpar] at hres; exact absurd hres (by simp)
  | ok pid =>
    rw [hpar] at hres
    cases hfpar : findN w.store pid with
    | none => simp [resolveFrom, hfpar] at hres
    | some n =>
      cases n with
      | file g => simp [resolveFrom, hfpar] at hres
      | dir pd =>
        cases hcg : childGet pd.children nm with
        | none => simp [resolveFrom, hfpar, hcg] at hres
        | some cid =>
          have hcid : cid = id := by simpa [resolveFrom, hfpar, hcg] using hres
          subst hcid
          have hemp : cid = cid → d.children.isEmpty = false := by
            intro _
            cases hch : d.children with
            | nil => exact absurd hch hne
            | cons x xs => rfl
          constructor
          · show removeAt w r (parts p) = .error .notEmpty
            rw [hp, removeAt_follows, hpar]
            simp only [removeAt, hfpar, hcg, hfind, hemp rfl]
            rfl
          · refine ⟨{ w with store := setN w.store pid (.dir { pd with children := childDel pd.children nm }) }, ?_, ?_⟩
            · show removeAllAt w r (parts p) = _
              rw [hp, removeAllAt_follows, hpar]
              simp only [removeAllAt, hfpar, hcg]
            · intro q hq
              obtain ⟨rest, hrest⟩ := hq
              simp only [stat]
              have hres' : resolveFrom (setN w.store pid
                  (.dir { pd with children := childDel pd.children nm })) r (parts q) =
                  .error .notFound := by
                rw [hrest, hp, List.append_assoc, resolve_append]
                have hps' := resolve_setN_high hwf hpar
                  (.dir { pd with children := childDel pd.children nm }) (Nat.le_refl pid)
                rw [hps']
                show resolveFrom _ pid (nm :: rest) = _
                simp only [resolveFrom, findN_setN_same _ hfpar,
                  childGet_childDel_same]
              rw [hres']

/-- Claim C4, witness: a concrete non-empty directory. -/
theorem claim_C4_witness :
    remove exW3 0 "sub" = .error .notEmpty ∧
    ∃ w', removeAll exW3 0 "sub" = .ok w' ∧
      ∀ q, (∃ rest, parts q = parts "sub" ++ rest) → stat w' 0 q = .error .notFound :=
  claim_C4_remove_nonempty exW3 0 "sub" [] "sub" 3 ⟨0o700, 0, none, [("dir", 4)]⟩
    (by decide) (by decide) (by decide) (by decide) (by decide)

/-! ## Lazy-loader machinery -/

theorem readStep_cases (w : World) (r : Nat) (q : String) :
    applyOp w r (.read q) = w ∨
    ∃ fid f ldr, findN w.store fid = some (.file f) ∧ f.data = .unresolved ldr ∧
      applyOp w r (.read q) =
        { w with store := setN w.store fid (.file { f with data := .resolved ldr.result }),
                 runLog := w.runLog ++ [ldr.lid] } := by
  have hshow : applyOp w r (.read q) =
      (match readFile w r q with | .ok (_, w₂) => w₂ | .error _ => w) := rfl
  rw [hshow, readFile]
  cases hres : resolveFrom w.store r (parts q) with
  | error e => exact Or.inl rfl
  | ok id =>
    simp only [forceAt]
    cases hfind : findN w.store id with
    | none => exact Or.inl rfl
    | some n =>
      cases n with
      | dir d => exact Or.inl rfl
      | file f =>
        cases hdata : f.data with
        | resolved c =>
          left
          dsimp only
          rw [hdata]
        | unresolved ldr =>
          right
          refine ⟨id, f, ldr, hfind, hdata, ?_⟩
          dsimp only
          rw [hdata]

theorem skel_none {o : Option Node} (h : skel o = none) : o = none := by
  cases o with
  | none => rfl
  | some n => cases n <;> simp [skel] at h

theorem skel_file {o : Option Node} (h : skel o = some none) :
    ∃ f, o = some (.file f) := by
  cases o with
  | none => simp [skel] at h
  | some n =>
    cases n with
    | file f => exact ⟨f, rfl⟩
    | dir d => simp [skel] at h

theorem skel_dir {o : Option Node} {cs : List (String × Nat)}
    (h : skel o = some (some cs)) : ∃ d, o = some (.dir d) ∧ d.children = cs := by
  cases o with
  | none => simp [skel] at h
  | some n =>
    cases n with
    | file f => simp [skel] at h
    | dir d =>
      refine ⟨d, rfl, ?_⟩
      simpa [skel] using h

theorem resolveFrom_skel {st st' : Store}
    (h : ∀ i, skel (findN st' i) = skel (findN st i)) :
    ∀ (segs : List String) (r : Nat), resolveFrom st' r segs = resolveFrom st r segs := by
  intro segs
  induction segs with
  | nil => intro r; rfl
  | cons s rest ih =>
    intro r
    cases hfind : findN st r with
    | none =>
      have hthis := h r
      rw [hfind] at hthis
      have h0 : findN st' r = none := skel_none (by simpa [skel] using hthis)
      simp [resolveFrom, h0, hfind]
    | some n =>
      cases n with
      | file f =>
        have hthis := h r
        rw [hfind] at hthis
        obtain ⟨f', hf'⟩ := skel_file (by simpa [skel] using hthis)
        simp [resolveFrom, hf', hfind]
      | dir d =>
        have hthis := h r
        rw [hfind] at hthis
        obtain ⟨d', hd', hch⟩ := skel_dir (by simpa [skel] using hthis)
        simp only [resolveFrom, hd', hfind, hch]
        cases childGet d.children s with
        | none => rfl
        | some cid => exact ih cid

theorem skel_setN_file {st : Store} {id : Nat} {f f' : FileNode}
    (hfind : findN st id = some (.file f)) :
    ∀ i, skel (findN (setN st id (.file f')) i) = skel (findN st i) := by
  intro i
  by_cases hi : i = id
  · subst hi
    rw [findN_setN_same _ hfind, hfind]
    rfl
  · rw [findN_setN_other hi]

theorem filter_len_setN {st : Store} {id : Nat} {n₀ : Node} (n : Node)
    (P : Nat × Node → Bool) (hfind : findN st id = some n₀) :
    ((setN st id n).filter P).length + (if P (id, n₀) then 1 else 0) =
      (st.filter P).length + (if P (id, n) then 1 else 0) := by
  induction st with
  | nil => simp [findN] at hfind
  | cons e rest ih =>
    obtain ⟨i, m⟩ := e
    simp only [findN] at hfind
    by_cases hi : i = id
    · subst hi
      rw [if_pos rfl] at hfind
      have hm : m = n₀ := by simpa using hfind
      have hset : setN ((i, m) :: rest) i n = (i, n) :: rest := by simp [setN]
      rw [hset, hm, List.filter_cons, List.filter_cons]
      by_cases h1 : P (i, n) = true <;> by_cases h2 : P (i, n₀) = true <;>
        simp [h1, h2] <;> omega
    · rw [if_neg hi] at hfind
      have hset : setN ((i, m) :: rest) id n = (i, m) :: setN rest id n := by
        simp [setN, hi]
      rw [hset, List.filter_cons, List.filter_cons]
      by_cases hp : P (i, m) = true
      · rw [if_pos hp, if_pos hp]
        simp only [List.length_cons]
        have := ih hfind
        omega
      · rw [if_neg hp, if_neg hp]
        exact ih hfind

theorem pend_entry_pos {st : Store} {i : Nat} {n : Node} {lid : Nat}
    (hmem : (i, n) ∈ st) (hp : pendsOn n lid = true) : 0 < pendCountS st lid := by
  have hmf : (i, n) ∈ st.filter (fun e => pendsOn e.2 lid) :=
    List.mem_filter.mpr ⟨hmem, hp⟩
  exact List.length_pos.mpr (List.ne_nil_of_mem hmf)

theorem exists_pend_of_pos {st : Store} {lid : Nat} (h : 0 < pendCountS st lid) :
    ∃ e ∈ st, pendsOn e.2 lid = true := by
  have hne : st.filter (fun e => pendsOn e.2 lid) ≠ [] := by
    intro hnil
    rw [pendCountS, hnil] at h
    simp at h
  obtain ⟨e, he⟩ := List.exists_mem_of_ne_nil _ hne
  exact ⟨e, (List.mem_filter.mp he).1, (List.mem_filter.mp he).2⟩

theorem pend_le_one_of_tracked {st : Store} {lid id₀ : Nat}
    (hnd : (st.map Prod.fst).Nodup)
    (htr : ∀ e ∈ st, pendsOn e.2 lid = true → e.1 = id₀) :
    pendCountS st lid ≤ 1 := by
  induction st with
  | nil => simp [pendCountS]
  | cons e rest ih =>
    obtain ⟨i, n⟩ := e
    simp only [List.map_cons, List.nodup_cons] at hnd
    by_cases hp : pendsOn n lid = true
    · have hi : i = id₀ := htr (i, n) (List.mem_cons_self _ _) hp
      have hrest0 : pendCountS rest lid = 0 := by
        by_contra h0
        obtain ⟨e', he', hpe'⟩ := exists_pend_of_pos (Nat.pos_of_ne_zero h0)
        have h1 : e'.1 = id₀ := htr e' (List.mem_cons_of_mem _ he') hpe'
        exact hnd.1 (List.mem_map.mpr ⟨e', he', by rw [h1, ← hi]⟩)
      show (((i, n) :: rest).filter (fun e => pendsOn e.2 lid)).length ≤ 1
      rw [List.filter_cons, if_pos hp]
      rw [pendCountS] at hrest0
      simp [hrest0]
    · show (((i, n) :: rest).filter (fun e => pendsOn e.2 lid)).length ≤ 1
      rw [List.filter_cons, if_neg hp]
      exact ih hnd.2 (fun e' he' => htr e' (List.mem_cons_of_mem _ he'))

theorem count_append_one (L : List Nat) (x a : Nat) :
    (L ++ [x]).count a = L.count a + (if x = a then 1 else 0) := by
  rw [List.count_append]
  by_cases hx : x = a
  · subst hx
    simp [List.count_singleton]
  · rw [if_neg hx]
    have : List.count a [x] = 0 := by
      simp [List.count_cons, hx]
    rw [this]

theorem read_step_inv (w : World) (r : Nat) (q : String) (lid id₀ : Nat)
    (hwf : WF w)
    (hsum : runCount w lid + pendCountS w.store lid ≤ 1)
    (htr : ∀ e ∈ w.store, pendsOn e.2 lid = true → e.1 = id₀) :
    WF (applyOp w r (.read q)) ∧
    runCount (applyOp w r (.read q)) lid +
      pendCountS (applyOp w r (.read q)).store lid ≤ 1 ∧
    (∀ e ∈ (applyOp w r (.read q)).store, pendsOn e.2 lid = true → e.1 = id₀) ∧
    (∀ i, skel (findN (applyOp w r (.read q)).store i) = skel (findN w.store i)) ∧
    (∀ i f c, findN w.store i = some (.file f) → f.data = .resolved c →
      findN (applyOp w r (.read q)).store i = some (.file f)) := by
  rcases readStep_cases w r q with h | ⟨fid, f, ldr, hfind, hdata, h⟩
  · rw [h]
    exact ⟨hwf, hsum, htr, fun _ => rfl, fun i f c hf _ => hf⟩
  · rw [h]
    have hpendf : pendsOn (.file f) lid = decide (ldr.lid = lid) := by
      simp [pendsOn, hdata]
    have hWF' : WF { w with
        store := setN w.store fid (.file { f with data := .resolved ldr.result }),
        runLog := w.runLog ++ [ldr.lid] } := by
      have := WF_setN hwf (.file { f with data := .resolved ldr.result }) hfind
        (by simp [childIds])
      exact ⟨this.1, this.2.1, this.2.2⟩
    have hadd := filter_len_setN
      (.file { f with data := .resolved ldr.result }) (fun e => pendsOn e.2 lid) hfind
    have hnewpend : pendsOn (.file { f with data := .resolved ldr.result }) lid = false := by
      simp [pendsOn]
    have hcount : runCount { w with
        store := setN w.store fid (.file { f with data := .resolved ldr.result }),
        runLog := w.runLog ++ [ldr.lid] } lid =
        runCount w lid + (if ldr.lid = lid then 1 else 0) := by
      show (w.runLog ++ [ldr.lid]).count lid = _
      exact count_append_one _ _ _
    refine ⟨hWF', ?_, ?_, ?_, ?_⟩
    · show runCount _ lid + pendCountS (setN w.store fid _) lid ≤ 1
      rw [hcount]
      by_cases hl : ldr.lid = lid
      · have holdpend : pendsOn (.file f) lid = true := by simp [pendsOn, hdata, hl]
        have hpos : 0 < pendCountS w.store lid :=
          pend_entry_pos (findN_mem hfind) holdpend
        simp only [holdpend, hnewpend] at hadd
        simp at hadd
        rw [if_pos hl]
        rw [pendCountS] at hpos ⊢
        rw [pendCountS] at hsum
        omega
      · have holdpend : pendsOn (.file f) lid = false := by simp [pendsOn, hdata, hl]
        simp only [holdpend, hnewpend] at hadd
        simp at hadd
        rw [if_neg hl]
        rw [pendCountS] at hsum ⊢
        omega
    · intro e he hpe
      rcases setN_subset e he with h' | h'
      · rw [h'] at hpe
        rw [hnewpend] at hpe
        exact absurd hpe (by simp)
      · exact htr e h' hpe
    · exact skel_setN_file hfind
    · intro i f₂ c hf₂ hc
      by_cases hi : i = fid
      · subst hi
        rw [hf₂] at hfind
        have : f₂ = f := by simpa using hfind
        rw [this, hdata] at hc
        exact absurd hc (by simp)
      · show findN (setN w.store fid _) i = _
        rw [findN_setN_other hi]
        exact hf₂

theorem reads_master (r : Nat) (lid id₀ : Nat) (rs : List String) :
    ∀ w, WF w →
      runCount w lid + pendCountS w.store lid ≤ 1 →
      (∀ e ∈ w.store, pendsOn e.2 lid = true → e.1 = id₀) →
      WF (applyReads w r rs) ∧
      runCount (applyReads w r rs) lid + pendCountS (applyReads w r rs).store lid ≤ 1 ∧
      (∀ e ∈ (applyReads w r rs).store, pendsOn e.2 lid = true → e.1 = id₀) ∧
      (∀ i, skel (findN (applyReads w r rs).store i) = skel (findN w.store i)) ∧
      (∀ i f c, findN w.store i = some (.file f) → f.data = .resolved c →
        findN (applyReads w r rs).store i = some (.file f)) := by
  induction rs with
  | nil =>
    intro w hwf hsum htr
    exact ⟨hwf, hsum, htr, fun _ => rfl, fun i f c hf _ => hf⟩
  | cons q rs' ih =>
    intro w hwf hsum htr
    obtain ⟨hwf₁, hsum₁, htr₁, hskel₁, hres₁⟩ := read_step_inv w r q lid id₀ hwf hsum htr
    obtain ⟨hwf₂, hsum₂, htr₂, hskel₂, hres₂⟩ := ih (applyOp w r (.read q)) hwf₁ hsum₁ htr₁
    refine ⟨hwf₂, hsum₂, htr₂, ?_, ?_⟩
    · intro i
      exact (hskel₂ i).trans (hskel₁ i)
    · intro i f c hf hc
      exact hres₂ i f c (hres₁ i f c hf hc) hc

theorem reads_resolved_master (r : Nat) (lid : Nat) (rs : List String) :
    ∀ w, WF w → pendCountS w.store lid = 0 →
      WF (applyReads w r rs) ∧
      pendCountS (applyReads w r rs).store lid = 0 ∧
      runCount (applyReads w r rs) lid = runCount w lid ∧
      (∀ i, skel (findN (applyReads w r rs).store i) = skel (findN w.store i)) ∧
      (∀ i f c, findN w.store i = some (.file f) → f.data = .resolved c →
        findN (applyReads w r rs).store i = some (.file f)) := by
  induction rs with
  | nil =>
    intro w hwf hpend
    exact ⟨hwf, hpend, rfl, fun _ => rfl, fun i f c hf _ => hf⟩
  | cons q rs' ih =>
    intro w hwf hpend
    have hstep : WF (applyOp w r (.read q)) ∧
        pendCountS (applyOp w r (.read q)).store lid = 0 ∧
        runCount (applyOp w r (.read q)) lid = runCount w lid ∧
        (∀ i, skel (findN (applyOp w r (.read q)).store i) = skel (findN w.store i)) ∧
        (∀ i f c, findN w.store i = some (.file f) → f.data = .resolved c →
          findN (applyOp w r (.read q)).store i = some (.file f)) := by
      rcases readStep_cases w r q with h | ⟨fid, f, ldr, hfind, hdata, h⟩
      · rw [h]
        exact ⟨hwf, hpend, rfl, fun _ => rfl, fun i f c hf _ => hf⟩
      · rw [h]
        have hlne : ldr.lid ≠ lid := by
          intro hl
          have hpos : 0 < pendCountS w.store lid :=
            pend_entry_pos (findN_mem hfind) (by simp [pendsOn, hdata, hl])
          omega
        have hWF' : WF { w with
            store := setN w.store fid (.file { f with data := .resolved ldr.result }),
            runLog := w.runLog ++ [ldr.lid] } := by
          have := WF_setN hwf (.file { f with data := .resolved ldr.result }) hfind
            (by simp [childIds])
          exact ⟨this.1, this.2.1, this.2.2⟩
        have hadd := filter_len_setN
          (.file { f with data := .resolved ldr.result }) (fun e => pendsOn e.2 lid) hfind
        have holdpend : pendsOn (.file f) lid = false := by
          simp [pendsOn, hdata, hlne]
        have hnewpend : pendsOn (.file { f with data := .resolved ldr.result }) lid = false := by
          simp [pendsOn]
        simp only [holdpend, hnewpend] at hadd
        simp at hadd
        refine ⟨hWF', ?_, ?_, skel_setN_file hfind, ?_⟩
        · show pendCountS (setN w.store fid _) lid = 0
          rw [pendCountS] at hpend ⊢
          omega
        · show (w.runLog ++ [ldr.lid]).count lid = w.runLog.count lid
          rw [count_append_one, if_neg hlne]
          simp
        · intro i f₂ c hf₂ hc
          by_cases hi : i = fid
          · subst hi
            rw [hf₂] at hfind
            have : f₂ = f := by simpa using hfind
            rw [this, hdata] at hc
            exact absurd hc (by simp)
          · show findN (setN w.store fid _) i = _
            rw [findN_setN_other hi]
            exact hf₂
    obtain ⟨hwf₁, hpend₁, hcnt₁, hskel₁, hres₁⟩ := hstep
    obtain ⟨hwf₂, hpend₂, hcnt₂, hskel₂, hres₂⟩ := ih (applyOp w r (.read q)) hwf₁ hpend₁
    refine ⟨hwf₂, hpend₂, hcnt₂.trans hcnt₁, ?_, ?_⟩
    · intro i
      exact (hskel₂ i).trans (hskel₁ i)
    · intro i f c hf hc
      exact hres₂ i f c (hres₁ i f c hf hc) hc

theorem reads_data_evolve (r : Nat) (rs : List String) (cid : Nat) (l₂ : Loader) :
    ∀ w (g : FileNode), findN w.store cid = some (.file g) →
      (g.data = .unresolved l₂ ∨ g.data = .resolved l₂.result) →
      ∃ g₂, findN (applyReads w r rs).store cid = some (.file g₂) ∧
        (g₂.data = .unresolved l₂ ∨ g₂.data = .resolved l₂.result) := by
  induction rs with
  | nil =>
    intro w g hf hd
    exact ⟨g, hf, hd⟩
  | cons q rs' ih =>
    intro w g hf hd
    have hunf : applyReads w r (q :: rs') = applyReads (applyOp w r (.read q)) r rs' := rfl
    rw [hunf]
    rcases readStep_cases w r q with h | ⟨fid, f, ldr, hfind, hdata, h⟩
    · rw [h]
      exact ih w g hf hd
    · rw [h]
      by_cases hi : fid = cid
      · rw [hi] at hfind ⊢
        rw [hf] at hfind
        have hgf : g = f := by simpa using hfind
        rcases hd with hdu | hdr
        · have hl : ldr = l₂ := by
            rw [hgf, hdata] at hdu
            simpa using hdu
          refine ih _ { f with data := .resolved ldr.result } ?_ (Or.inr ?_)
          · show findN (setN w.store cid (.file { f with data := .resolved ldr.result })) cid =
              some (.file { f with data := .resolved ldr.result })
            exact findN_setN_same _ hf
          · show FileData.resolved ldr.result = FileData.resolved l₂.result
            rw [hl]
        · exfalso
          rw [hgf, hdata] at hdr
          exact absurd hdr (by simp)
      · refine ih _ g ?_ hd
        show findN (setN w.store fid (.file { f with data := .resolved ldr.result })) cid =
          some (.file g)
        rw [findN_setN_other (fun hh => hi hh.symm)]
        exact hf

/-- Claim C3: a file created by `writeLazyFile` has its loader invoked at
most once across any sequence of reads (the result is cached on first
resolution); after a subsequent `writeFile` to the same path, later reads
return the overwriting bytes and never re-run the stale loader; and after a
subsequent `writeLazyFile` to the same path with a fresh loader, later reads
return the new loader's content, the stale loader's invocation count never
changes (staying at most one), and the new loader itself runs at most
once. -/
theorem claim_C3_lazy_loader_once (w : World) (r : Nat) (p : String)
    (ldr : Loader) (m : Nat) (w₁ : World) (hwf : WF w)
    (h : writeLazyFile w r p ldr m = .ok w₁)
    (hrun : runCount w ldr.lid = 0)
    (hpend : pendCountS w.store ldr.lid = 0) :
    (∀ rs, runCount (applyReads w₁ r rs) ldr.lid ≤ 1) ∧
    (∀ rs bytes m' w₃, writeFile (applyReads w₁ r rs) r p bytes m' = .ok w₃ →
      ∀ rs₂, runCount (applyReads w₃ r rs₂) ldr.lid ≤ 1 ∧
        readView (applyReads w₃ r rs₂) r p = .ok bytes) ∧
    (∀ rs ldr₂ m' w₃, ldr₂.lid ≠ ldr.lid →
      runCount w ldr₂.lid = 0 → pendCountS w.store ldr₂.lid = 0 →
      writeLazyFile (applyReads w₁ r rs) r p ldr₂ m' = .ok w₃ →
      ∀ rs₂,
        runCount (applyReads w₃ r rs₂) ldr.lid = runCount (applyReads w₁ r rs) ldr.lid ∧
        runCount (applyReads w₃ r rs₂) ldr.lid ≤ 1 ∧
        runCount (applyReads w₃ r rs₂) ldr₂.lid ≤ 1 ∧
        readView (applyReads w₃ r rs₂) r p = .ok ldr₂.result) := by
  cases hm : hasDirBit m with
  | true => simp [writeLazyFile, hm] at h
  | false =>
    simp only [writeLazyFile, hm, Bool.false_eq_true, if_false] at h
    obtain ⟨hwf₁, _, hlog₁, _⟩ := insert_WF hwf h
    obtain ⟨cid, sy, hres₁, hfile₁, hent⟩ := insert_ok hwf h
    have hrun₁ : runCount w₁ ldr.lid = 0 := by
      show w₁.runLog.count ldr.lid = 0
      rw [hlog₁]
      exact hrun
    have htr₁ : ∀ e ∈ w₁.store, pendsOn e.2 ldr.lid = true → e.1 = cid := by
      intro e he hp
      rcases hent e he with ⟨d, hd⟩ | hmem | hcid
      · rw [hd] at hp
        simp [pendsOn] at hp
      · exfalso
        have hmem' : (e.1, e.2) ∈ w.store := by rw [Prod.mk.eta]; exact hmem
        have := pend_entry_pos hmem' hp
        omega
      · exact hcid
    have hp1 : pendCountS w₁.store ldr.lid ≤ 1 :=
      pend_le_one_of_tracked hwf₁.2.1 htr₁
    have hsum₁ : runCount w₁ ldr.lid + pendCountS w₁.store ldr.lid ≤ 1 := by omega
    refine ⟨?_, ?_, ?_⟩
    · intro rs
      have := (reads_master r ldr.lid cid rs w₁ hwf₁ hsum₁ htr₁).2.1
      omega
    · intro rs bytes m' w₃ hw rs₂
      obtain ⟨hwf₂, hsum₂, htr₂, hskel₂, _⟩ := reads_master r ldr.lid cid rs w₁ hwf₁ hsum₁ htr₁
      have hres₂ : resolveFrom (applyReads w₁ r rs).store r (parts p) = .ok cid := by
        rw [resolveFrom_skel hskel₂]
        exact hres₁
      cases hm' : hasDirBit m' with
      | true => simp [writeFile, hm'] at hw
      | false =>
        simp only [writeFile, hm', Bool.false_eq_true, if_false] at hw
        cases hpp : parts p with
        | nil =>
          rw [hpp] at hw
          simp [insertFileAt] at hw
        | cons a rest =>
          rw [hpp] at hw hres₂
          rw [insert_at_resolved (by simp) hres₂] at hw
          cases hfind₂ : findN (applyReads w₁ r rs).store cid with
          | none => rw [hfind₂] at hw; exact absurd hw (by simp)
          | some nn =>
            cases nn with
            | dir d₂ => rw [hfind₂] at hw; exact absurd hw (by simp)
            | file old =>
              rw [hfind₂] at hw
              simp only [Except.ok.injEq] at hw
              subst hw
              have hwf₃ : WF _ := WF_setN hwf₂
                (.file { mode := m', modTime := (applyReads w₁ r rs).time, sys := old.sys, data := .resolved bytes }) hfind₂ (by simp [childIds])
              have hadd := filter_len_setN
                (.file { mode := m', modTime := (applyReads w₁ r rs).time, sys := old.sys, data := .resolved bytes })
                (fun e => pendsOn e.2 ldr.lid) hfind₂
              have hnew : pendsOn (.file { mode := m', modTime := (applyReads w₁ r rs).time, sys := old.sys, data := .resolved bytes }) ldr.lid = false := by
                simp [pendsOn]
              simp only [hnew] at hadd
              simp at hadd
              have hpend₃ : pendCountS (setN (applyReads w₁ r rs).store cid
                  (.file { mode := m', modTime := (applyReads w₁ r rs).time, sys := old.sys, data := .resolved bytes })) ldr.lid = 0 := by
                by_cases hop : pendsOn (.file old) ldr.lid = true
                · have hpos : 0 < pendCountS (applyReads w₁ r rs).store ldr.lid :=
                    pend_entry_pos (findN_mem hfind₂) hop
                  simp only [hop] at hadd
                  simp at hadd
                  rw [pendCountS] at hpos ⊢
                  rw [pendCountS] at hsum₂
                  omega
                · have hz : pendCountS (applyReads w₁ r rs).store ldr.lid = 0 := by
                    by_contra h0
                    obtain ⟨e, he, hpe⟩ := exists_pend_of_pos (Nat.pos_of_ne_zero h0)
                    have hcide : e.1 = cid := htr₂ e he hpe
                    have hmem' : (cid, e.2) ∈ (applyReads w₁ r rs).store := by
                      rw [← hcide, Prod.mk.eta]
                      exact he
                    have := findN_of_mem_nodup hwf₂.2.1 hmem'
                    rw [hfind₂] at this
                    have he2 : e.2 = .file old := by simpa using this.symm
                    rw [he2] at hpe
                    exact hop hpe
                  simp only [Bool.not_eq_true] at hop
                  simp only [hop] at hadd
                  simp at hadd
                  rw [pendCountS] at hz ⊢
                  omega
              have hres₃ : resolveFrom (setN (applyReads w₁ r rs).store cid
                  (.file { mode := m', modTime := (applyReads w₁ r rs).time, sys := old.sys, data := .resolved bytes })) r (a :: rest) = .ok cid :=
                resolve_setN_high hwf₂ hres₂ _ (Nat.le_refl cid)
              obtain ⟨_, hpend₄, hcnt₄, hskel₄, hrespres₄⟩ :=
                reads_resolved_master r ldr.lid rs₂ _ hwf₃ hpend₃
              constructor
              · rw [hcnt₄]
                show runCount (applyReads w₁ r rs) ldr.lid ≤ 1
                omega
              · have hfin : findN (applyReads { (applyReads w₁ r rs) with
                    store := setN (applyReads w₁ r rs).store cid
                      (.file { mode := m', modTime := (applyReads w₁ r rs).time, sys := old.sys, data := .resolved bytes }) } r rs₂).store cid =
                    some (.file { mode := m', modTime := (applyReads w₁ r rs).time, sys := old.sys, data := .resolved bytes }) := by
                  apply hrespres₄ cid _ bytes
                  · exact findN_setN_same _ hfind₂
                  · rfl
                have hresfin : resolveFrom (applyReads { (applyReads w₁ r rs) with
                    store := setN (applyReads w₁ r rs).store cid
                      (.file { mode := m', modTime := (applyReads w₁ r rs).time, sys := old.sys, data := .resolved bytes }) } r rs₂).store r (parts p) = .ok cid := by
                  rw [resolveFrom_skel hskel₄, hpp]
                  exact hres₃
                simp only [readView, readFile, hresfin, forceAt, hfin]
    · intro rs ldr₂ m' w₃ hlid hrun₂ hpend₂ hw rs₂
      obtain ⟨hwf₂, hsum₂, htr₂, hskel₂, _⟩ := reads_master r ldr.lid cid rs w₁ hwf₁ hsum₁ htr₁
      have hres₂ : resolveFrom (applyReads w₁ r rs).store r (parts p) = .ok cid := by
        rw [resolveFrom_skel hskel₂]
        exact hres₁
      have hpend₁b : pendCountS w₁.store ldr₂.lid = 0 := by
        by_contra h0
        obtain ⟨e, he, hpe⟩ := exists_pend_of_pos (Nat.pos_of_ne_zero h0)
        rcases hent e he with ⟨d, hd⟩ | hmem | hcid
        · rw [hd] at hpe
          simp [pendsOn] at hpe
        · have hmem' : (e.1, e.2) ∈ w.store := by rw [Prod.mk.eta]; exact hmem
          have := pend_entry_pos hmem' hpe
          omega
        · have hmem' : (cid, e.2) ∈ w₁.store := by rw [← hcid, Prod.mk.eta]; exact he
          have hfe := findN_of_mem_nodup hwf₁.2.1 hmem'
          rw [hfile₁] at hfe
          have he2 : e.2 = .file { mode := m, modTime := w.time, sys := sy, data := .unresolved ldr } := by
            simpa using hfe.symm
          rw [he2] at hpe
          simp [pendsOn] at hpe
          exact hlid hpe.symm
      have hrun₁b : runCount w₁ ldr₂.lid = 0 := by
        show w₁.runLog.count ldr₂.lid = 0
        rw [hlog₁]
        exact hrun₂
      obtain ⟨_, hpend₂b, hcnt₂b, _, _⟩ := reads_resolved_master r ldr₂.lid rs w₁ hwf₁ hpend₁b
      cases hm' : hasDirBit m' with
      | true => simp [writeLazyFile, hm'] at hw
      | false =>
        simp only [writeLazyFile, hm', Bool.false_eq_true, if_false] at hw
        cases hpp : parts p with
        | nil =>
          rw [hpp] at hw
          simp [insertFileAt] at hw
        | cons a rest =>
          rw [hpp] at hw hres₂
          rw [insert_at_resolved (by simp) hres₂] at hw
          cases hfind₂ : findN (applyReads w₁ r rs).store cid with
          | none => rw [hfind₂] at hw; exact absurd hw (by simp)
          | some nn =>
            cases nn with
            | dir d₂ => rw [hfind₂] at hw; exact absurd hw (by simp)
            | file old =>
              rw [hfind₂] at hw
              simp only [Except.ok.injEq] at hw
              subst hw
              have hwf₃ : WF _ := WF_setN hwf₂
                (.file { mode := m', modTime := (applyReads w₁ r rs).time, sys := old.sys, data := .unresolved ldr₂ }) hfind₂ (by simp [childIds])
              have hadd := filter_len_setN
                (.file { mode := m', modTime := (applyReads w₁ r rs).time, sys := old.sys, data := .unresolved ldr₂ })
                (fun e => pendsOn e.2 ldr.lid) hfind₂
              have hnew : pendsOn (.file { mode := m', modTime := (applyReads w₁ r rs).time, sys := old.sys, data := .unresolved ldr₂ }) ldr.lid = false := by
                simp [pendsOn, hlid]
              simp only [hnew] at hadd
              simp at hadd
              have hpend₃ : pendCountS (setN (applyReads w₁ r rs).store cid
                  (.file { mode := m', modTime := (applyReads w₁ r rs).time, sys := old.sys, data := .unresolved ldr₂ })) ldr.lid = 0 := by
                by_cases hop : pendsOn (.file old) ldr.lid = true
                · have hpos : 0 < pendCountS (applyReads w₁ r rs).store ldr.lid :=
                    pend_entry_pos (findN_mem hfind₂) hop
                  simp only [hop] at hadd
                  simp at hadd
                  rw [pendCountS] at hpos ⊢
                  rw [pendCountS] at hsum₂
                  omega
                · have hz : pendCountS (applyReads w₁ r rs).store ldr.lid = 0 := by
                    by_contra h0
                    obtain ⟨e, he, hpe⟩ := exists_pend_of_pos (Nat.pos_of_ne_zero h0)
                    have hcide : e.1 = cid := htr₂ e he hpe
                    have hmem' : (cid, e.2) ∈ (applyReads w₁ r rs).store := by
                      rw [← hcide, Prod.mk.eta]
                      exact he
                    have := findN_of_mem_nodup hwf₂.2.1 hmem'
                    rw [hfind₂] at this
                    have he2 : e.2 = .file old := by simpa using this.symm
                    rw [he2] at hpe
                    exact hop hpe
                  simp only [Bool.not_eq_true] at hop
                  simp only [hop] at hadd
                  simp at hadd
                  rw [pendCountS] at hz ⊢
                  omega
              have haddb := filter_len_setN
                (.file { mode := m', modTime := (applyReads w₁ r rs).time, sys := old.sys, data := .unresolved ldr₂ })
                (fun e => pendsOn e.2 ldr₂.lid) hfind₂
              have hnewb : pendsOn (.file { mode := m', modTime := (applyReads w₁ r rs).time, sys := old.sys, data := .unresolved ldr₂ }) ldr₂.lid = true := by
                simp [pendsOn]
              have holdb : pendsOn (.file old) ldr₂.lid = false := by
                cases hbx : pendsOn (.file old) ldr₂.lid with
                | false => rfl
                | true =>
                  exfalso
                  have := pend_entry_pos (findN_mem hfind₂) hbx
                  omega
              simp only [hnewb, holdb] at haddb
              simp at haddb
              have hpend₃b : pendCountS (setN (applyReads w₁ r rs).store cid
                  (.file { mode := m', modTime := (applyReads w₁ r rs).time, sys := old.sys, data := .unresolved ldr₂ })) ldr₂.lid = 1 := by
                rw [pendCountS] at hpend₂b ⊢
                omega
              have htrB : ∀ e ∈ setN (applyReads w₁ r rs).store cid
                  (.file { mode := m', modTime := (applyReads w₁ r rs).time, sys := old.sys, data := .unresolved ldr₂ }),
                  pendsOn e.2 ldr₂.lid = true → e.1 = cid := by
                intro e he hpe
                rcases setN_subset e he with he₂ | hmem
                · rw [he₂]
                · exfalso
                  have hmem' : (e.1, e.2) ∈ (applyReads w₁ r rs).store := by
                    rw [Prod.mk.eta]
                    exact hmem
                  have := pend_entry_pos hmem' hpe
                  omega
              have hsumB : runCount (applyReads w₁ r rs) ldr₂.lid + pendCountS (setN (applyReads w₁ r rs).store cid
                  (.file { mode := m', modTime := (applyReads w₁ r rs).time, sys := old.sys, data := .unresolved ldr₂ })) ldr₂.lid ≤ 1 := by
                rw [hcnt₂b, hrun₁b, hpend₃b]
              have hres₃ : resolveFrom (setN (applyReads w₁ r rs).store cid
                  (.file { mode := m', modTime := (applyReads w₁ r rs).time, sys := old.sys, data := .unresolved ldr₂ })) r (a :: rest) = .ok cid :=
                resolve_setN_high hwf₂ hres₂ _ (Nat.le_refl cid)
              obtain ⟨_, hpend₄, hcnt₄, hskel₄, _⟩ :=
                reads_resolved_master r ldr.lid rs₂ _ hwf₃ hpend₃
              have hmB := reads_master r ldr₂.lid cid rs₂ _ hwf₃ hsumB htrB
              refine ⟨?_, ?_, ?_, ?_⟩
              · rw [hcnt₄]
                rfl
              · rw [hcnt₄]
                show runCount (applyReads w₁ r rs) ldr.lid ≤ 1
                omega
              · have := hmB.2.1
                omega
              · have hresfin : resolveFrom (applyReads { (applyReads w₁ r rs) with
                    store := setN (applyReads w₁ r rs).store cid
                      (.file { mode := m', modTime := (applyReads w₁ r rs).time, sys := old.sys, data := .unresolved ldr₂ }) } r rs₂).store r (parts p) = .ok cid := by
                  rw [resolveFrom_skel hskel₄, hpp]
                  exact hres₃
                obtain ⟨g₂, hfing, hdg⟩ := reads_data_evolve r rs₂ cid ldr₂
                  { (applyReads w₁ r rs) with
                    store := setN (applyReads w₁ r rs).store cid
                      (.file { mode := m', modTime := (applyReads w₁ r rs).time, sys := old.sys, data := .unresolved ldr₂ }) }
                  { mode := m', modTime := (applyReads w₁ r rs).time, sys := old.sys, data := .unresolved ldr₂ }
                  (findN_setN_same _ hfind₂) (Or.inl rfl)
                rcases hdg with hdu | hdr
                · simp only [readView, readFile, hresfin, forceAt, hfing, hdu]
                · simp only [readView, readFile, hresfin, forceAt, hfing, hdr]

/-- Claim C3, witness: on a concrete world a lazily written file is read
three times and the loader ran at most once; after overwriting with plain
bytes, a further read returns the overwriting bytes and the loader count
stays at most one; and after overwriting with a second lazy loader, a
further read returns the new loader's content while the stale loader's
count is unchanged and the new loader ran at most once. -/
theorem claim_C3_witness :
    runCount (applyReads exW5 0 ["lazy.txt", "lazy.txt", "lazy.txt"]) 5 ≤ 1 ∧
    runCount (applyReads exW7 0 ["lazy.txt"]) 5 ≤ 1 ∧
    readView (applyReads exW7 0 ["lazy.txt"]) 0 "lazy.txt" = .ok [4] ∧
    runCount (applyReads exW10 0 ["lazy.txt"]) 5 = runCount (applyReads exW5 0 ["lazy.txt"]) 5 ∧
    runCount (applyReads exW10 0 ["lazy.txt"]) 5 ≤ 1 ∧
    runCount (applyReads exW10 0 ["lazy.txt"]) 6 ≤ 1 ∧
    readView (applyReads exW10 0 ["lazy.txt"]) 0 "lazy.txt" = .ok [1, 1] := by
  have base := claim_C3_lazy_loader_once exW1 0 "lazy.txt" { lid := 5, result := [8, 9] }
    0o644 exW5 (by decide) (by decide) (by decide) (by decide)
  have h2 := base.2.1 ["lazy.txt"] [4] 0o600 exW7 (by decide) ["lazy.txt"]
  have h3 := base.2.2 ["lazy.txt"] { lid := 6, result := [1, 1] } 0o600 exW10
    (by decide) (by decide) (by decide) (by decide) ["lazy.txt"]
  exact ⟨base.1 ["lazy.txt", "lazy.txt", "lazy.txt"], h2.1, h2.2,
    h3.1, h3.2.1, h3.2.2.1, h3.2.2.2⟩

/-! ## Clone independence: side-confined frame lemmas -/

theorem resolve_side {A : Nat → Bool} :
    ∀ {segs : List String} {st : Store} {a id : Nat},
      sideClosed A st → A a = true → resolveFrom st a segs = .ok id → A id = true := by
  intro segs
  induction segs with
  | nil =>
    intro st a id _ ha h
    simp only [resolveFrom, Except.ok.injEq] at h
    rw [← h]
    exact ha
  | cons s rest ih =>
    intro st a id hc ha h
    cases hfind : findN st a with
    | none => simp [resolveFrom, hfind] at h
    | some nd =>
      cases nd with
      | file f => simp [resolveFrom, hfind] at h
      | dir d =>
        cases hcg : childGet d.children s with
        | none => simp [resolveFrom, hfind, hcg] at h
        | some cid =>
          simp only [resolveFrom, hfind, hcg] at h
          have hcid : A cid = true := by
            refine hc (a, .dir d) (findN_mem hfind) ha cid ?_
            simp only [childIds]
            exact List.mem_map.mpr ⟨(s, cid), childGet_mem hcg, rfl⟩
          exact ih hc hcid h

theorem resolve_frameEq {A : Nat → Bool} :
    ∀ (segs : List String) {st st₂ : Store} {b : Nat},
      (∀ i, A i = false → findN st₂ i = findN st i) →
      sideClosed (fun i => !A i) st → A b = false →
      resolveFrom st₂ b segs = resolveFrom st b segs := by
  intro segs
  induction segs with
  | nil => intro st st₂ b _ _ _; rfl
  | cons s rest ih =>
    intro st st₂ b hfr hcl hb
    rw [resolveFrom, resolveFrom, hfr b hb]
    cases hfind : findN st b with
    | none => rfl
    | some nd =>
      cases nd with
      | file f => rfl
      | dir d =>
        dsimp only
        cases hcg : childGet d.children s with
        | none => rfl
        | some cid =>
          have hcid : A cid = false := by
            have := hcl (b, .dir d) (findN_mem hfind) (by simp [hb]) cid
              (by simp only [childIds]; exact List.mem_map.mpr ⟨(s, cid), childGet_mem hcg, rfl⟩)
            simpa using this
          exact ih hfr hcl hcid

theorem stat_frameEq {A : Nat → Bool} {w₂ w : World} {b : Nat}
    (hfr : ∀ i, A i = false → findN w₂.store i = findN w.store i)
    (hcl : sideClosed (fun i => !A i) w.store) (hb : A b = false) (p : String) :
    stat w₂ b p = stat w b p := by
  rw [stat, stat, resolve_frameEq (parts p) hfr hcl hb]
  cases hres : resolveFrom w.store b (parts p) with
  | error e => rfl
  | ok id =>
    have hid : A id = false := by
      simpa using resolve_side (A := fun i => !A i) hcl (by simp [hb]) hres
    show statNode w₂.store (lastName p) id = statNode w.store (lastName p) id
    rw [statNode, statNode, hfr id hid]

theorem readView_frameEq {A : Nat → Bool} {w₂ w : World} {b : Nat}
    (hfr : ∀ i, A i = false → findN w₂.store i = findN w.store i)
    (hcl : sideClosed (fun i => !A i) w.store) (hb : A b = false) (p : String) :
    readView w₂ b p = readView w b p := by
  rw [readView, readView, readFile, readFile, resolve_frameEq (parts p) hfr hcl hb]
  cases hres : resolveFrom w.store b (parts p) with
  | error e => rfl
  | ok id =>
    have hid : A id = false := by
      simpa using resolve_side (A := fun i => !A i) hcl (by simp [hb]) hres
    dsimp only
    simp only [forceAt, hfr id hid]
    cases hfind : findN w.store id with
    | none => rfl
    | some nd =>
      cases nd with
      | dir d => rfl
      | file f =>
        dsimp only
        cases f.data <;> rfl

theorem sideClosed_setN {A : Nat → Bool} {st : Store} {id : Nat} {n : Node}
    (hcl : sideClosed A st)
    (hn : A id = true → ∀ c ∈ childIds n, A c = true) :
    sideClosed A (setN st id n) := by
  intro e he hA c hc
  rcases setN_subset e he with he₂ | hmem
  · rw [he₂] at hA hc
    exact hn hA c hc
  · exact hcl e hmem hA c hc

theorem sideFrame_trans {A : Nat → Bool} {w₁ w₂ w₃ : World}
    (h₁ : sideFrame A w₁ w₂) (h₂ : sideFrame A w₂ w₃) : sideFrame A w₁ w₃ :=
  ⟨fun i hi => (h₂.1 i hi).trans (h₁.1 i hi), h₂.2.1, h₂.2.2.1,
    Nat.le_trans h₁.2.2.2 h₂.2.2.2⟩

theorem sideFrame_refl {A : Nat → Bool} {w : World}
    (hcl : sideClosed A w.store) (hfr : sideFresh A w) : sideFrame A w w :=
  ⟨fun _ _ => rfl, hcl, hfr, Nat.le_refl _⟩

theorem linkChild_sideFrame {A : Nat → Bool} {w : World} {id : Nat} {d : DirNode}
    (hfind : findN w.store id = some (.dir d)) (hcl : sideClosed A w.store)
    (hfr : sideFresh A w) (hA : A id = true)
    (name : String) (nn : Node) (hnn : childIds nn = []) :
    sideFrame A w (linkChild w id d name nn) := by
  have hAn : A w.nextId = true := hfr _ (Nat.le_refl _)
  refine ⟨?_, ?_, ?_, Nat.le_succ _⟩
  · intro i hAi
    have hine : i ≠ id := fun he => by rw [he, hA] at hAi; cases hAi
    have hinn : i ≠ w.nextId := fun he => by rw [he, hAn] at hAi; cases hAi
    show findN (setN ((w.nextId, nn) :: w.store) id _) i = _
    rw [findN_setN_other hine, findN_cons, if_neg (fun he => hinn he.symm)]
  · show sideClosed A (setN ((w.nextId, nn) :: w.store) id _)
    have hcons : sideClosed A ((w.nextId, nn) :: w.store) := by
      intro e he hAe c hc
      rcases List.mem_cons.mp he with he₂ | hmem
      · rw [he₂] at hc
        rw [hnn] at hc
        cases hc
      · exact hcl e hmem hAe c hc
    refine sideClosed_setN hcons ?_
    intro _ c hc
    simp only [childIds] at hc
    rcases List.mem_map.mp hc with ⟨e, he, he₂⟩
    rcases childSet_mem e he with he₃ | hmem
    · rw [he₃] at he₂
      rw [← he₂]
      exact hAn
    · refine hcl (id, .dir d) (findN_mem hfind) hA c ?_
      simp only [childIds]
      exact List.mem_map.mpr ⟨e, hmem, he₂⟩
  · intro i hi
    exact hfr i (Nat.le_of_succ_le hi)

theorem side_child {A : Nat → Bool} {st : Store} {id cid : Nat} {d : DirNode} {name : String}
    (hcl : sideClosed A st) (hfind : findN st id = some (.dir d)) (hA : A id = true)
    (hcg : childGet d.children name = some cid) : A cid = true := by
  refine hcl (id, .dir d) (findN_mem hfind) hA cid ?_
  simp only [childIds]
  exact List.mem_map.mpr ⟨(name, cid), childGet_mem hcg, rfl⟩

theorem insert_sideFrame {A : Nat → Bool} {f : FileNode} :
    ∀ {segs : List String} {w : World} {id : Nat} {w₂ : World},
      sideClosed A w.store → sideFresh A w → A id = true →
      insertFileAt w id f segs = .ok w₂ → sideFrame A w w₂ := by
  intro segs
  induction segs with
  | nil => intro w id w₂ _ _ _ h; simp [insertFileAt] at h
  | cons name rest ih =>
    intro w id w₂ hcl hfr hA h
    cases hfind : findN w.store id with
    | none => cases rest <;> simp [insertFileAt, hfind] at h
    | some m =>
      cases m with
      | file g => cases rest <;> simp [insertFileAt, hfind] at h
      | dir d =>
        cases rest with
        | nil =>
          cases hcg : childGet d.children name with
          | some cid =>
            cases hf2 : findN w.store cid with
            | none => simp [insertFileAt, hfind, hcg, hf2] at h
            | some nn =>
              cases nn with
              | dir d2 => simp [insertFileAt, hfind, hcg, hf2] at h
              | file old =>
                simp only [insertFileAt, hfind, hcg, hf2, Except.ok.injEq] at h
                subst h
                have hcid : A cid = true := side_child hcl hfind hA hcg
                refine ⟨?_, ?_, hfr, Nat.le_refl _⟩
                · intro i hAi
                  exact findN_setN_other (fun he => by rw [he, hcid] at hAi; cases hAi)
                · exact sideClosed_setN hcl (fun _ c hc => by simp [childIds] at hc)
          | none =>
            simp only [insertFileAt, hfind, hcg, Except.ok.injEq] at h
            subst h
            exact linkChild_sideFrame hfind hcl hfr hA name (.file f) rfl
        | cons seg rest₂ =>
          cases hcg : childGet d.children name with
          | some cid =>
            simp only [insertFileAt, hfind, hcg] at h
            exact ih hcl hfr (side_child hcl hfind hA hcg) h
          | none =>
            simp only [insertFileAt, hfind, hcg] at h
            have hlk := linkChild_sideFrame hfind hcl hfr hA name
              (.dir { mode := f.mode, modTime := w.time, sys := none, children := [] }) rfl
            have hA2 : A w.nextId = true := hfr _ (Nat.le_refl _)
            exact sideFrame_trans hlk (ih hlk.2.1 hlk.2.2.1 hA2 h)

theorem mkdir_sideFrame {A : Nat → Bool} {m : Nat} :
    ∀ {segs : List String} {w : World} {id : Nat} {w₂ : World},
      sideClosed A w.store → sideFresh A w → A id = true →
      mkdirAllAt w id m segs = .ok w₂ → sideFrame A w w₂ := by
  intro segs
  induction segs with
  | nil =>
    intro w id w₂ hcl hfr _ h
    cases hfind : findN w.store id with
    | none => simp [mkdirAllAt, hfind] at h
    | some nd =>
      cases nd with
      | file g => simp [mkdirAllAt, hfind] at h
      | dir d =>
        simp only [mkdirAllAt, hfind, Except.ok.injEq] at h
        subst h
        exact sideFrame_refl hcl hfr
  | cons name rest ih =>
    intro w id w₂ hcl hfr hA h
    cases hfind : findN w.store id with
    | none => simp [mkdirAllAt, hfind] at h
    | some nd =>
      cases nd with
      | file g => simp [mkdirAllAt, hfind] at h
      | dir d =>
        cases hcg : childGet d.children name with
        | some cid =>
          simp only [mkdirAllAt, hfind, hcg] at h
          exact ih hcl hfr (side_child hcl hfind hA hcg) h
        | none =>
          simp only [mkdirAllAt, hfind, hcg] at h
          have hlk := linkChild_sideFrame hfind hcl hfr hA name
            (.dir { mode := m, modTime := w.time, sys := none, children := [] }) rfl
          have hA2 : A w.nextId = true := hfr _ (Nat.le_refl _)
          exact sideFrame_trans hlk (ih hlk.2.1 hlk.2.2.1 hA2 h)

theorem removeAt_sideFrame {A : Nat → Bool} :
    ∀ {segs : List String} {w : World} {id : Nat} {w₂ : World},
      sideClosed A w.store → sideFresh A w → A id = true →
      removeAt w id segs = .ok w₂ → sideFrame A w w₂ := by
  intro segs
  induction segs with
  | nil => intro w id w₂ _ _ _ h; simp [removeAt] at h
  | cons name rest ih =>
    intro w id w₂ hcl hfr hA h
    cases hfind : findN w.store id with
    | none => cases rest <;> simp [removeAt, hfind] at h
    | some m =>
      cases m with
      | file g => cases rest <;> simp [removeAt, hfind] at h
      | dir d =>
        cases rest with
        | nil =>
          cases hcg : childGet d.children name with
          | none => simp [removeAt, hfind, hcg] at h
          | some cid =>
            cases hf2 : findN w.store cid with
            | none => simp [removeAt, hfind, hcg, hf2] at h
            | some nn =>
              have hsub : w₂ = { w with store := setN w.store id (.dir { d with children := childDel d.children name }) } → sideFrame A w w₂ := by
                intro hw
                rw [hw]
                refine ⟨?_, ?_, hfr, Nat.le_refl _⟩
                · intro i hAi
                  exact findN_setN_other (fun he => by rw [he, hA] at hAi; cases hAi)
                · refine sideClosed_setN hcl ?_
                  intro hA₂ c hc
                  refine hcl (id, .dir d) (findN_mem hfind) hA₂ c ?_
                  simp only [childIds] at hc ⊢
                  rcases List.mem_map.mp hc with ⟨e, he, he₂⟩
                  exact List.mem_map.mpr ⟨e, childDel_subset e he, he₂⟩
              cases nn with
              | file g =>
                simp only [removeAt, hfind, hcg, hf2, Except.ok.injEq] at h
                exact hsub h.symm
              | dir cd =>
                by_cases hemp : cd.children.isEmpty = true
                · simp only [removeAt, hfind, hcg, hf2, hemp, if_true, Except.ok.injEq] at h
                  exact hsub h.symm
                · simp [removeAt, hfind, hcg, hf2, hemp] at h
        | cons seg rest₂ =>
          cases hcg : childGet d.children name with
          | none => simp [removeAt, hfind, hcg] at h
          | some cid =>
            simp only [removeAt, hfind, hcg] at h
            exact ih hcl hfr (side_child hcl hfind hA hcg) h

theorem removeAllAt_sideFrame {A : Nat → Bool} :
    ∀ {segs : List String} {w : World} {id : Nat} {w₂ : World},
      sideClosed A w.store → sideFresh A w → A id = true →
      removeAllAt w id segs = .ok w₂ → sideFrame A w w₂ := by
  intro segs
  induction segs with
  | nil =>
    intro w id w₂ hcl hfr hA h
    cases hfind : findN w.store id with
    | none => simp [removeAllAt, hfind] at h
    | some nd =>
      cases nd with
      | file g => simp [removeAllAt, hfind] at h
      | dir d =>
        simp only [removeAllAt, hfind, Except.ok.injEq] at h
        rw [← h]
        refine ⟨?_, ?_, hfr, Nat.le_refl _⟩
        · intro i hAi
          exact findN_setN_other (fun he => by rw [he, hA] at hAi; cases hAi)
        · exact sideClosed_setN hcl (fun _ c hc => by simp [childIds] at hc)
  | cons name rest ih =>
    intro w id w₂ hcl hfr hA h
    cases hfind : findN w.store id with
    | none => cases rest <;> simp [removeAllAt, hfind] at h
    | some m =>
      cases m with
      | file g => cases rest <;> simp [removeAllAt, hfind] at h
      | dir d =>
        cases rest with
        | nil =>
          cases hcg : childGet d.children name with
          | none => simp [removeAllAt, hfind, hcg] at h
          | some cid =>
            simp only [removeAllAt, hfind, hcg, Except.ok.injEq] at h
            rw [← h]
            refine ⟨?_, ?_, hfr, Nat.le_refl _⟩
            · intro i hAi
              exact findN_setN_other (fun he => by rw [he, hA] at hAi; cases hAi)
            · refine sideClosed_setN hcl ?_
              intro hA₂ c hc
              refine hcl (id, .dir d) (findN_mem hfind) hA₂ c ?_
              simp only [childIds] at hc ⊢
              rcases List.mem_map.mp hc with ⟨e, he, he₂⟩
              exact List.mem_map.mpr ⟨e, childDel_subset e he, he₂⟩
        | cons seg rest₂ =>
          cases hcg : childGet d.children name with
          | none => simp [removeAllAt, hfind, hcg] at h
          | some cid =>
            simp only [removeAllAt, hfind, hcg] at h
            exact ih hcl hfr (side_child hcl hfind hA hcg) h

theorem setMode_sideFrame {A : Nat → Bool} {w : World} {r : Nat} {p : String} {m : Nat}
    {w₂ : World} (hcl : sideClosed A w.store) (hfr : sideFresh A w) (hA : A r = true)
    (h : setMode w r p m = .ok w₂) : sideFrame A w w₂ := by
  cases hres : resolveFrom w.store r (parts p) with
  | error e => simp [setMode, hres] at h
  | ok id =>
    have hid : A id = true := resolve_side hcl hA hres
    cases hfind : findN w.store id with
    | none => simp [setMode, hres, hfind] at h
    | some nd =>
      cases nd with
      | file f =>
        simp only [setMode, hres, hfind, Except.ok.injEq] at h
        rw [← h]
        refine ⟨?_, ?_, hfr, Nat.le_refl _⟩
        · intro i hAi
          exact findN_setN_other (fun he => by rw [he, hid] at hAi; cases hAi)
        · exact sideClosed_setN hcl (fun _ c hc => by simp [childIds] at hc)
      | dir d =>
        simp only [setMode, hres, hfind, Except.ok.injEq] at h
        rw [← h]
        refine ⟨?_, ?_, hfr, Nat.le_refl _⟩
        · intro i hAi
          exact findN_setN_other (fun he => by rw [he, hid] at hAi; cases hAi)
        · refine sideClosed_setN hcl ?_
          intro hA₂ c hc
          exact hcl (id, .dir d) (findN_mem hfind) hA₂ c hc

theorem read_sideFrame {A : Nat → Bool} {w : World} {r : Nat} (p : String)
    (hcl : sideClosed A w.store) (hfr : sideFresh A w) (hA : A r = true) :
    sideFrame A w (applyOp w r (.read p)) := by
  have hshow : applyOp w r (.read p) =
      (match readFile w r p with | .ok (_, w₂) => w₂ | .error _ => w) := rfl
  rw [hshow, readFile]
  cases hres : resolveFrom w.store r (parts p) with
  | error e => exact sideFrame_refl hcl hfr
  | ok id =>
    have hid : A id = true := resolve_side hcl hA hres
    dsimp only
    simp only [forceAt]
    cases hfind : findN w.store id with
    | none => exact sideFrame_refl hcl hfr
    | some nd =>
      cases nd with
      | dir d => exact sideFrame_refl hcl hfr
      | file f =>
        dsimp only
        cases hdata : f.data with
        | resolved c => exact sideFrame_refl hcl hfr
        | unresolved ldr =>
          refine ⟨?_, ?_, hfr, Nat.le_refl _⟩
          · intro i hAi
            exact findN_setN_other (fun he => by rw [he, hid] at hAi; cases hAi)
          · exact sideClosed_setN hcl (fun _ c hc => by simp [childIds] at hc)

theorem applyOp_sideFrame {A : Nat → Bool} {w : World} {r : Nat}
    (hcl : sideClosed A w.store) (hfr : sideFresh A w) (hA : A r = true) :
    ∀ op, sideFrame A w (applyOp w r op) := by
  intro op
  cases op with
  | write p bytes m =>
    have hshow : applyOp w r (.write p bytes m) =
        (match writeFile w r p bytes m with | .ok w₂ => w₂ | .error _ => w) := rfl
    rw [hshow]
    cases hw : writeFile w r p bytes m with
    | error e => exact sideFrame_refl hcl hfr
    | ok w₂ =>
      simp only [writeFile] at hw
      by_cases hm : hasDirBit m = true
      · rw [if_pos hm] at hw; exact absurd hw (by simp)
      · rw [if_neg hm] at hw
        exact insert_sideFrame hcl hfr hA hw
  | writeLazy p ldr m =>
    have hshow : applyOp w r (.writeLazy p ldr m) =
        (match writeLazyFile w r p ldr m with | .ok w₂ => w₂ | .error _ => w) := rfl
    rw [hshow]
    cases hw : writeLazyFile w r p ldr m with
    | error e => exact sideFrame_refl hcl hfr
    | ok w₂ =>
      simp only [writeLazyFile] at hw
      by_cases hm : hasDirBit m = true
      · rw [if_pos hm] at hw; exact absurd hw (by simp)
      · rw [if_neg hm] at hw
        exact insert_sideFrame hcl hfr hA hw
  | mkdir p m =>
    have hshow : applyOp w r (.mkdir p m) =
        (match mkdirAll w r p m with | .ok w₂ => w₂ | .error _ => w) := rfl
    rw [hshow]
    cases hw : mkdirAll w r p m with
    | error e => exact sideFrame_refl hcl hfr
    | ok w₂ =>
      rw [mkdirAll] at hw
      exact mkdir_sideFrame hcl hfr hA hw
  | rm p =>
    have hshow : applyOp w r (.rm p) =
        (match remove w r p with | .ok w₂ => w₂ | .error _ => w) := rfl
    rw [hshow]
    cases hw : remove w r p with
    | error e => exact sideFrame_refl hcl hfr
    | ok w₂ =>
      rw [remove] at hw
      exact removeAt_sideFrame hcl hfr hA hw
  | rmAll p =>
    have hshow : applyOp w r (.rmAll p) =
        (match removeAll w r p with | .ok w₂ => w₂ | .error _ => w) := rfl
    rw [hshow]
    cases hw : removeAll w r p with
    | error e => exact sideFrame_refl hcl hfr
    | ok w₂ =>
      rw [removeAll] at hw
      exact removeAllAt_sideFrame hcl hfr hA hw
  | read p => exact read_sideFrame p hcl hfr hA
  | chmod p m =>
    have hshow : applyOp w r (.chmod p m) =
        (match setMode w r p m with | .ok w₂ => w₂ | .error _ => w) := rfl
    rw [hshow]
    cases hw : setMode w r p m with
    | error e => exact sideFrame_refl hcl hfr
    | ok w₂ => exact setMode_sideFrame hcl hfr hA hw

theorem applyOps_sideFrame {A : Nat → Bool} {r : Nat} (hA : A r = true) :
    ∀ (ops : List Op) (w : World), sideClosed A w.store → sideFresh A w →
      sideFrame A w (applyOps w r ops) := by
  intro ops
  induction ops with
  | nil => intro w hcl hfr; exact sideFrame_refl hcl hfr
  | cons op rest ih =>
    intro w hcl hfr
    have h1 := applyOp_sideFrame hcl hfr hA op
    exact sideFrame_trans h1 (ih (applyOp w r op) h1.2.1 h1.2.2.1)

theorem findN_big_none : ∀ {st : Store} {j n : Nat},
    (∀ e ∈ st, e.1 < n) → n ≤ j → findN st j = none := by
  intro st
  induction st with
  | nil => intro j n _ _; rfl
  | cons e rest ih =>
    intro j n hb hj
    obtain ⟨a, nd⟩ := e
    rw [findN]
    rw [if_neg]
    · exact ih (fun e he => hb e (List.mem_cons_of_mem _ he)) hj
    · intro he
      have := hb (a, nd) (List.mem_cons_self _ _)
      omega

theorem findN_mapShift (n : Nat) : ∀ (st : Store) (i : Nat),
    findN (st.map (fun e => (e.1 + n, shiftNode n e.2))) (i + n) =
      (findN st i).map (shiftNode n) := by
  intro st
  induction st with
  | nil => intro i; rfl
  | cons e rest ih =>
    intro i
    obtain ⟨a, nd⟩ := e
    simp only [List.map_cons]
    rw [findN, findN]
    by_cases he : a = i
    · rw [if_pos (by rw [he]), if_pos he]
      rfl
    · rw [if_neg (fun hh => he (Nat.add_right_cancel hh)), if_neg he]
      exact ih i

theorem childGet_mapShift (n : Nat) : ∀ (cs : List (String × Nat)) (s : String),
    childGet (cs.map (fun e => (e.1, e.2 + n))) s =
      (childGet cs s).map (fun c => c + n) := by
  intro cs
  induction cs with
  | nil => intro s; rfl
  | cons e rest ih =>
    intro s
    obtain ⟨nm, c⟩ := e
    simp only [List.map_cons]
    rw [childGet, childGet]
    by_cases he : nm = s
    · rw [if_pos he, if_pos he]
      rfl
    · rw [if_neg he, if_neg he]
      exact ih s

theorem findN_clone_high {w : World} {r : Nat} (hb : ∀ e ∈ w.store, e.1 < w.nextId)
    (i : Nat) :
    findN (clone w r).1.store (i + w.nextId) = (findN w.store i).map (shiftNode w.nextId) := by
  show findN (w.store ++ w.store.map (fun e => (e.1 + w.nextId, shiftNode w.nextId e.2))) (i + w.nextId) = _
  rw [findN_append_none (findN_big_none hb (Nat.le_add_left _ _))]
  exact findN_mapShift w.nextId w.store i

theorem resolve_clone {w : World} {r : Nat} (hb : ∀ e ∈ w.store, e.1 < w.nextId) :
    ∀ (segs : List String) (a : Nat),
      resolveFrom (clone w r).1.store (a + w.nextId) segs =
        Except.map (fun i => i + w.nextId) (resolveFrom w.store a segs) := by
  intro segs
  induction segs with
  | nil => intro a; rfl
  | cons s rest ih =>
    intro a
    rw [resolveFrom, resolveFrom, findN_clone_high (r := r) hb a]
    cases hfind : findN w.store a with
    | none => rfl
    | some nd =>
      cases nd with
      | file f => rfl
      | dir d =>
        simp only [Option.map_some']
        dsimp only [shiftNode]
        rw [childGet_mapShift]
        cases hcg : childGet d.children s with
        | none => rfl
        | some cid => exact ih cid

theorem stat_clone {w : World} {r : Nat} (hb : ∀ e ∈ w.store, e.1 < w.nextId)
    (p : String) :
    stat (clone w r).1 (clone w r).2 p = stat w r p := by
  rw [stat, stat]
  have hgoal : (clone w r).2 = r + w.nextId := rfl
  rw [hgoal, resolve_clone (r := r) hb (parts p) r]
  cases hres : resolveFrom w.store r (parts p) with
  | error e => rfl
  | ok id =>
    dsimp only [Except.map]
    show statNode (clone w r).1.store (lastName p) (id + w.nextId) =
      statNode w.store (lastName p) id
    rw [statNode, statNode, findN_clone_high (r := r) hb id]
    cases hfind : findN w.store id with
    | none => rfl
    | some nd =>
      cases nd with
      | file f => rfl
      | dir d => rfl

theorem readView_clone {w : World} {r : Nat} (hb : ∀ e ∈ w.store, e.1 < w.nextId)
    (p : String) :
    readView (clone w r).1 (clone w r).2 p = readView w r p := by
  rw [readView, readView, readFile, readFile]
  have hgoal : (clone w r).2 = r + w.nextId := rfl
  rw [hgoal, resolve_clone (r := r) hb (parts p) r]
  cases hres : resolveFrom w.store r (parts p) with
  | error e => rfl
  | ok id =>
    dsimp only [Except.map]
    simp only [forceAt, findN_clone_high (r := r) hb id]
    cases hfind : findN w.store id with
    | none => rfl
    | some nd =>
      cases nd with
      | dir d => rfl
      | file f =>
        dsimp only [shiftNode, Option.map_some']
        cases f.data <;> rfl

theorem childIds_shift (n : Nat) (nd : Node) :
    childIds (shiftNode n nd) = (childIds nd).map (fun c => c + n) := by
  cases nd with
  | file f => rfl
  | dir d => simp [childIds, shiftNode, List.map_map, Function.comp]

theorem clone_store_mem {w : World} {r : Nat} {e : Nat × Node}
    (he : e ∈ (clone w r).1.store) :
    e ∈ w.store ∨ ∃ x ∈ w.store, e = (x.1 + w.nextId, shiftNode w.nextId x.2) := by
  rcases List.mem_append.mp he with h | h
  · exact Or.inl h
  · rcases List.mem_map.mp h with ⟨x, hx, hxe⟩
    exact Or.inr ⟨x, hx, hxe.symm⟩

theorem WF_child_lt {w : World} (hwf : WF w) {e : Nat × Node} (he : e ∈ w.store)
    {c : Nat} (hc : c ∈ childIds e.2) : c < w.nextId := by
  have h2 := (hwf.2.2 e he c hc).2
  cases hfind : findN w.store c with
  | none => rw [hfind] at h2; cases h2
  | some nd => exact hwf.1 (c, nd) (findN_mem hfind)

theorem cloneOps_preserve_orig {w : World} {r : Nat} (hwf : WF w) (hr : r < w.nextId)
    (ops : List Op) (p : String) :
    stat (applyOps (clone w r).1 (clone w r).2 ops) r p = stat (clone w r).1 r p ∧
    readView (applyOps (clone w r).1 (clone w r).2 ops) r p = readView (clone w r).1 r p := by
  have hcl2 : sideClosed (fun i => decide (w.nextId ≤ i)) (clone w r).1.store := by
    intro e he hAe c hc
    rcases clone_store_mem he with hmem | ⟨x, hx, hxe⟩
    · exfalso
      have := hwf.1 e hmem
      simp only [decide_eq_true_eq] at hAe
      omega
    · have hc₂ : c ∈ (childIds x.2).map (fun c => c + w.nextId) := by
        rw [← childIds_shift]
        rw [hxe] at hc
        exact hc
      rcases List.mem_map.mp hc₂ with ⟨c₀, _, hc₀⟩
      simp only [decide_eq_true_eq]
      omega
  have hfr2 : sideFresh (fun i => decide (w.nextId ≤ i)) (clone w r).1 := by
    intro i hi
    have hni : (clone w r).1.nextId = w.nextId + w.nextId := rfl
    rw [hni] at hi
    simp only [decide_eq_true_eq]
    omega
  have hA2r : (fun i => decide (w.nextId ≤ i)) (clone w r).2 = true := by
    have hc2 : (clone w r).2 = r + w.nextId := rfl
    rw [hc2]
    simp only [decide_eq_true_eq]
    omega
  have hbar2 : sideClosed (fun i => !(fun i => decide (w.nextId ≤ i)) i) (clone w r).1.store := by
    intro e he hAe c hc
    rcases clone_store_mem he with hmem | ⟨x, hx, hxe⟩
    · have hcn := WF_child_lt hwf hmem hc
      simp only [Bool.not_eq_true', decide_eq_false_iff_not, not_le]
      omega
    · exfalso
      have hx1 : e.1 = x.1 + w.nextId := by rw [hxe]
      simp only [Bool.not_eq_true', decide_eq_false_iff_not, not_le] at hAe
      omega
  have hbr : (fun i => decide (w.nextId ≤ i)) r = false := by
    simp only [decide_eq_false_iff_not, not_le]
    omega
  have hsf := applyOps_sideFrame hA2r ops (clone w r).1 hcl2 hfr2
  exact ⟨stat_frameEq hsf.1 hbar2 hbr p, readView_frameEq hsf.1 hbar2 hbr p⟩

theorem origOps_preserve_clone {w : World} {r : Nat} (hwf : WF w) (hr : r < w.nextId)
    (ops : List Op) (p : String) :
    stat (applyOps (clone w r).1 r ops) (clone w r).2 p = stat (clone w r).1 (clone w r).2 p ∧
    readView (applyOps (clone w r).1 r ops) (clone w r).2 p = readView (clone w r).1 (clone w r).2 p := by
  have hcl3 : sideClosed (fun i => decide (i < w.nextId ∨ w.nextId + w.nextId ≤ i)) (clone w r).1.store := by
    intro e he hAe c hc
    rcases clone_store_mem he with hmem | ⟨x, hx, hxe⟩
    · have hcn := WF_child_lt hwf hmem hc
      simp only [decide_eq_true_eq]
      omega
    · exfalso
      have hx1 : e.1 = x.1 + w.nextId := by rw [hxe]
      have hxlt := hwf.1 x hx
      simp only [decide_eq_true_eq] at hAe
      omega
  have hfr3 : sideFresh (fun i => decide (i < w.nextId ∨ w.nextId + w.nextId ≤ i)) (clone w r).1 := by
    intro i hi
    have hni : (clone w r).1.nextId = w.nextId + w.nextId := rfl
    rw [hni] at hi
    simp only [decide_eq_true_eq]
    omega
  have hA3r : (fun i => decide (i < w.nextId ∨ w.nextId + w.nextId ≤ i)) r = true := by
    simp only [decide_eq_true_eq]
    omega
  have hbar3 : sideClosed (fun i => !(fun i => decide (i < w.nextId ∨ w.nextId + w.nextId ≤ i)) i) (clone w r).1.store := by
    intro e he hAe c hc
    simp only [Bool.not_eq_true', decide_eq_false_iff_not, not_or, not_lt, not_le] at hAe
    rcases clone_store_mem he with hmem | ⟨x, hx, hxe⟩
    · exfalso
      have := hwf.1 e hmem
      omega
    · have hc₂ : c ∈ (childIds x.2).map (fun c => c + w.nextId) := by
        rw [← childIds_shift]
        rw [hxe] at hc
        exact hc
      rcases List.mem_map.mp hc₂ with ⟨c₀, hc₀m, hc₀⟩
      have hclt : c₀ < w.nextId := WF_child_lt hwf hx hc₀m
      simp only [Bool.not_eq_true', decide_eq_false_iff_not, not_or, not_lt, not_le]
      omega
  have hbr3 : (fun i => decide (i < w.nextId ∨ w.nextId + w.nextId ≤ i)) (clone w r).2 = false := by
    have hc2 : (clone w r).2 = r + w.nextId := rfl
    rw [hc2]
    simp only [decide_eq_false_iff_not, not_or, not_lt, not_le]
    omega
  have hsf := applyOps_sideFrame hA3r ops (clone w r).1 hcl3 hfr3
  exact ⟨stat_frameEq hsf.1 hbar3 hbr3 p, readView_frameEq hsf.1 hbar3 hbr3 p⟩

/-- Claim C5: `clone` produces a deep copy of the node graph — the clone
reports the same stat and read results as the original for every path, and
loaders are copied, not forced (the invocation record is untouched) — and
the two façades are independent: any sequence of operations performed
through the clone's root never changes what the original root reports for
any path, and any sequence performed through the original never changes
what the clone reports. -/
theorem claim_C5_clone_independence (w : World) (r : Nat) (hwf : WF w)
    (hr : r < w.nextId) :
    ((clone w r).1.runLog = w.runLog ∧
     ∀ p, stat (clone w r).1 (clone w r).2 p = stat w r p ∧
       readView (clone w r).1 (clone w r).2 p = readView w r p) ∧
    (∀ ops p, stat (applyOps (clone w r).1 (clone w r).2 ops) r p = stat (clone w r).1 r p ∧
       readView (applyOps (clone w r).1 (clone w r).2 ops) r p = readView (clone w r).1 r p) ∧
    (∀ ops p, stat (applyOps (clone w r).1 r ops) (clone w r).2 p = stat (clone w r).1 (clone w r).2 p ∧
       readView (applyOps (clone w r).1 r ops) (clone w r).2 p = readView (clone w r).1 (clone w r).2 p) := by
  refine ⟨⟨rfl, fun p => ⟨stat_clone hwf.1 p, readView_clone hwf.1 p⟩⟩, ?_, ?_⟩
  · intro ops p
    exact cloneOps_preserve_orig hwf hr ops p
  · intro ops p
    exact origOps_preserve_clone hwf hr ops p

/-- Claim C5, witness: on a concrete world, the clone reads the original's
file identically; writing and removing through the clone leaves the
original's view of "docs/a.txt" unchanged, and writing through the original
leaves the clone's view unchanged. -/
theorem claim_C5_witness :
    readView exClone.1 exClone.2 "docs/a.txt" = readView exW1 0 "docs/a.txt" ∧
    stat exW8 0 "docs/a.txt" = stat exClone.1 0 "docs/a.txt" ∧
    readView exW9 exClone.2 "third.txt" = readView exClone.1 exClone.2 "third.txt" := by
  have base := claim_C5_clone_independence exW1 0 (by decide) (by decide)
  refine ⟨(base.1.2 "docs/a.txt").2, ?_, ?_⟩
  · exact (base.2.1 [.write "second.txt" [4] 0o644, .rm "docs/a.txt"] "docs/a.txt").1
  · exact (base.2.2 [.write "third.txt" [5] 0o644] "third.txt").2

end Memfs
